import Mathlib

/-!
Verification of the `avl` repository: an immutable (persistent) AVL tree.

The embedding below translates the Go source into Lean:
  * `node` methods from `src/unnamed/part_001` become functions on `Node`;
    a `nil` pointer becomes the `Node.nil` constructor, and the
    clone-then-rewire steps of the Go code become construction of new
    `Node` values (a pointer-free rendering of the same value semantics).
  * `Tree` methods from `src/tree.go` become functions on `Tree`.
  * The Go `Item` interface (a single three-way `Compare` method) is
    instantiated at a concrete record type with an integer `key` that is
    compared (by subtraction, exactly like `IntItem.Compare` in
    `node_test.go`) and a `payload` that comparison ignores.  The payload
    realizes the documented freedom of the interface (`part_001` lines
    3-27: distinct values such as `User`/`ID` may compare equal), so two
    items can compare equal while being different values - the only
    distinction the tree algorithms can observe beyond the sign of
    `Compare`.
-/

namespace AvlSpec

/-- Instantiation of the Go `Item` interface (`part_001` lines 28-34):
an integer key ordered by subtraction as in `IntItem.Compare`
(`node_test.go` lines 367-371), plus a payload ignored by comparison. -/
structure Item where
  key : Int
  payload : Int
deriving DecidableEq

/-- Three-way comparison, `x.Compare(y)`: negative / zero / positive for
less / equal / greater, implemented as key subtraction like
`IntItem.Compare` in `node_test.go`. -/
def Item.compare (x y : Item) : Int :=
  x.key - y.key

/-- The Go `node` struct (`part_001` lines 36-42): a value, two child
subtrees and the cached subtree height `h`.  A `nil` `*node` pointer is
the `nil` constructor. -/
inductive Node where
  | nil : Node
  | node (value : Item) (left : Node) (right : Node) (h : Int) : Node
deriving DecidableEq

/-- Go `max` (`part_001` lines 412-417). -/
def goMax (a b : Int) : Int :=
  if a > b then a else b

namespace Node

/-- `(*node).height` (`part_001` lines 308-313): 0 for nil, else the
cached `h` field. -/
def height : Node → Int
  | .nil => 0
  | .node _ _ _ h => h

/-- `(*node).balance` (`part_001` lines 315-320): right height minus
left height, 0 for nil. -/
def balance : Node → Int
  | .nil => 0
  | .node _ l r _ => r.height - l.height

/-- `(*node).Size` (`part_001` lines 47-52). -/
def Size : Node → Int
  | .nil => 0
  | .node _ l r _ => 1 + l.Size + r.Size

/-- `(*node).adjustHeight` (`part_001` lines 304-306), rendered as a
function returning the node with its `h` field recomputed from the
children's cached heights.  (Go mutates `n.h` in place; the method is
only ever invoked on freshly cloned or created nodes.) -/
def adjustHeight : Node → Node
  | .nil => .nil
  | .node v l r _ => .node v l r (goMax l.height r.height + 1)

/-- `(*node).rotateRight` (`part_001` lines 370-385): clone the left
child as the new root, clone `n` with `left` rewired to the old
`left.right`, hang that clone on the new root's right, and recompute the
two heights bottom-up.  The fallthrough case (nil receiver or nil left
child) would dereference nil in Go and is unreachable in the program. -/
def rotateRight : Node → Node
  | .node v (.node lv ll lr _) r _ =>
    let m := Node.node v lr r (goMax lr.height r.height + 1)
    Node.node lv ll m (goMax ll.height m.height + 1)
  | n => n

/-- `(*node).rotateLeft` (`part_001` lines 387-402), mirror of
`rotateRight`. -/
def rotateLeft : Node → Node
  | .node v l (.node rv rl rr _) _ =>
    let m := Node.node v l rl (goMax l.height rl.height + 1)
    Node.node rv m rr (goMax m.height rr.height + 1)
  | n => n

/-- `(*node).rebalance` (`part_001` lines 322-368).  The four guarded
cases are translated in source order; the Go `panic` arm
(`b > 1 || b < -1` with none of the four guards holding) is
unreachable because the guards on the child balance are exhaustive,
so the translation ends in the identity arm. -/
def rebalance (n : Node) : Node :=
  match n with
  | .nil => .nil
  | .node v l r h =>
    let b := (Node.node v l r h).balance
    if b < -1 ∧ l.balance ≤ 0 then
      (Node.node v l r h).rotateRight
    else if b > 1 ∧ 0 ≤ r.balance then
      (Node.node v l r h).rotateLeft
    else if b < -1 ∧ 0 < l.balance then
      (Node.node v l.rotateLeft r h).rotateRight
    else if b > 1 ∧ r.balance < 0 then
      (Node.node v l r.rotateRight h).rotateLeft
    else
      Node.node v l r h

/-- `(*node).Insert` (`part_001` lines 57-91): descend by comparison;
on an equal value return the receiver unchanged together with the
stored value as `existing`; otherwise clone the node with the updated
child, recompute its height and rebalance. -/
def Insert : Node → Item → Node × Option Item
  | .nil, x => (.node x .nil .nil 1, none)
  | .node v l r h, x =>
    let cmp := Item.compare x v
    if cmp < 0 then
      match Insert l x with
      | (_, some e) => (.node v l r h, some e)
      | (m, none) => (((Node.node v m r h).adjustHeight).rebalance, none)
    else if cmp > 0 then
      match Insert r x with
      | (_, some e) => (.node v l r h, some e)
      | (m, none) => (((Node.node v l m h).adjustHeight).rebalance, none)
    else
      (.node v l r h, some v)

/-- `(*node).Update` (`part_001` lines 97-118): always clones the
receiver; descends left via `Update`, descends right via `Insert`
(the asymmetry is in the source, line 110), replaces the stored value
on an equal comparison (line 112) - and then line 117 returns the
literal `nil` as `prev`, discarding the previous value the switch
computed.  The translation therefore returns `none` as the second
component. -/
def Update : Node → Item → Node × Option Item
  | .nil, x => (.node x .nil .nil 1, none)
  | .node v l r h, x =>
    let cmp := Item.compare x v
    let root :=
      if cmp < 0 then Node.node v (Update l x).1 r h
      else if cmp > 0 then Node.node v l (Insert r x).1 h
      else Node.node x l r h
    ((root.adjustHeight).rebalance, none)

/-- `(*node).Max` (`part_001` lines 161-170): rightmost value, none for
an empty subtree. -/
def Max : Node → Option Item
  | .nil => none
  | .node v _ r _ =>
    match r with
    | .nil => some v
    | r => r.Max

/-- `(*node).Min` (`part_001` lines 172-181): leftmost value, none for
an empty subtree. -/
def Min : Node → Option Item
  | .nil => none
  | .node v l _ _ =>
    match l with
    | .nil => some v
    | l => l.Min

/-- `(*node).Search` (`part_001` lines 186-199). -/
def Search : Node → Item → Option Item
  | .nil, _ => none
  | .node v l r _, x =>
    let cmp := Item.compare x v
    if cmp < 0 then l.Search x
    else if cmp > 0 then r.Search x
    else some v

/-- `(*node).Predcessor` (`part_001` lines 203-220; the method name is
spelled this way in the source). -/
def Predcessor : Node → Item → Option Item
  | .nil, _ => none
  | .node v l r _, x =>
    let cmp := Item.compare x v
    if cmp < 0 then l.Predcessor x
    else if cmp > 0 then
      match r.Predcessor x with
      | none => some v
      | some p => some p
    else l.Max

/-- `(*node).Successor` (`part_001` lines 224-241). -/
def Successor : Node → Item → Option Item
  | .nil, _ => none
  | .node v l r _, x =>
    let cmp := Item.compare x v
    if cmp < 0 then
      match l.Successor x with
      | none => some v
      | some s => some s
    else if cmp > 0 then r.Successor x
    else r.Min

/-- Node count, the measure for the mutual recursion between `Delete`
and `destroy` below (Go recursion terminates for the same reason). -/
def count : Node → Nat
  | .nil => 0
  | .node _ l r _ => l.count + r.count + 1

mutual

/-- `(*node).Delete` (`part_001` lines 123-159): descend by comparison;
when the child reports the value absent, return the receiver unchanged
(no clone on the not-found path); on an equal value destroy the node;
otherwise clone with the updated child, recompute height, rebalance. -/
def Delete : Node → Item → Node × Option Item
  | .nil, _ => (.nil, none)
  | .node v l r h, x =>
    let cmp := Item.compare x v
    if cmp < 0 then
      match Delete l x with
      | (_, none) => (.node v l r h, none)
      | (m, some e) => (((Node.node v m r h).adjustHeight).rebalance, some e)
    else if cmp > 0 then
      match Delete r x with
      | (_, none) => (.node v l r h, none)
      | (m, some e) => (((Node.node v l m h).adjustHeight).rebalance, some e)
    else
      match destroy v l r h with
      | .nil => (.nil, some v)
      | root => ((root.adjustHeight).rebalance, some v)
termination_by n => 2 * n.count + 1
decreasing_by all_goals simp [count] <;> omega

/-- `(*node).destroy` (`part_001` lines 276-302), taking the receiver's
fields (the Go method is only invoked on a non-nil receiver): with two
children, build a fresh node (Go `new(node)`, `h` initially 0) holding
the left subtree's maximum, the left subtree with that maximum deleted,
and the untouched right subtree; with one child, return that child
as-is; with no children, return nil.  The inner `none` arm is
unreachable (`Max` of a non-nil subtree always yields a value). -/
def destroy (_v : Item) (l r : Node) (_h : Int) : Node :=
  match l, r with
  | .node lv ll lr lh, .node rv rl rr rh =>
    match (Node.node lv ll lr lh).Max with
    | some m =>
      Node.node m (Delete (Node.node lv ll lr lh) m).1 (Node.node rv rl rr rh) 0
    | none => .nil
  | .node _ _ _ _, .nil => l
  | .nil, .node _ _ _ _ => r
  | .nil, .nil => .nil
termination_by 2 * (l.count + r.count + 1)
decreasing_by all_goals (simp [count]; omega)

end

/-- `(*node).InOrder` (`part_001` lines 245-252).  The Go visitor is an
impure closure; it is modelled by explicit state passing of type `σ`.
Line 250 calls `fn(n.value)` and discards the returned boolean, so the
translation drops the `Bool` component and always recurses into the
right subtree. -/
def InOrder {σ : Type} (fn : σ → Item → σ × Bool) : Node → σ → σ
  | .nil, s => s
  | .node v l r _, s => InOrder fn r (fn (InOrder fn l s) v).1

/-- `(*node).PreOrder` (`part_001` lines 256-263); the visitor's boolean
is discarded exactly as in `InOrder`. -/
def PreOrder {σ : Type} (fn : σ → Item → σ × Bool) : Node → σ → σ
  | .nil, s => s
  | .node v l r _, s => PreOrder fn r (PreOrder fn l (fn s v).1)

/-- `(*node).PostOrder` (`part_001` lines 267-274); the visitor's
boolean is discarded exactly as in `InOrder`. -/
def PostOrder {σ : Type} (fn : σ → Item → σ × Bool) : Node → σ → σ
  | .nil, s => s
  | .node v l r _, s => (fn (PostOrder fn r (PostOrder fn l s)) v).1

end Node

/-- The `Tree` struct (`tree.go` lines 10-13): root pointer and exact
element counter. -/
structure Tree where
  root : Node
  size : Int
deriving DecidableEq

/-- The Go zero value `var tree Tree`: nil root, size 0. -/
def Tree.empty : Tree :=
  ⟨.nil, 0⟩

/-- `Tree.Size` (`tree.go` lines 17-19). -/
def Tree.Size (t : Tree) : Int :=
  t.size

/-- `Tree.Insert` (`tree.go` lines 24-30): delegate to the root node and
increment `size` when nothing already existed. -/
def Tree.Insert (t : Tree) (x : Item) : Tree × Option Item :=
  let p := t.root.Insert x
  (⟨p.1, if p.2 = none then t.size + 1 else t.size⟩, p.2)

/-- `Tree.Update` (`tree.go` lines 36-42): delegate to the root node and
increment `size` when no previous value was reported. -/
def Tree.Update (t : Tree) (x : Item) : Tree × Option Item :=
  let p := t.root.Update x
  (⟨p.1, if p.2 = none then t.size + 1 else t.size⟩, p.2)

/-- `Tree.Delete` (`tree.go` lines 47-53): delegate to the root node and
decrement `size` when a value was deleted. -/
def Tree.Delete (t : Tree) (x : Item) : Tree × Option Item :=
  let p := t.root.Delete x
  (⟨p.1, if p.2 = none then t.size else t.size - 1⟩, p.2)

/-- `Tree.Max` (`tree.go` lines 56-58). -/
def Tree.Max (t : Tree) : Option Item :=
  t.root.Max

/-- `Tree.Min` (`tree.go` lines 61-63). -/
def Tree.Min (t : Tree) : Option Item :=
  t.root.Min

/-- `Tree.Search` (`tree.go` lines 68-70). -/
def Tree.Search (t : Tree) (x : Item) : Option Item :=
  t.root.Search x

/-- `Tree.Predecessor` (`tree.go` lines 74-76), delegating to the node
layer's `Predcessor` (the node-level spelling in `part_001`). -/
def Tree.Predecessor (t : Tree) (x : Item) : Option Item :=
  t.root.Predcessor x

/-- `Tree.Successor` (`tree.go` lines 80-82). -/
def Tree.Successor (t : Tree) (x : Item) : Option Item :=
  t.root.Successor x

/-- `Tree.InOrder` (`tree.go` lines 86-88). -/
def Tree.InOrder {σ : Type} (t : Tree) (fn : σ → Item → σ × Bool) (s : σ) : σ :=
  t.root.InOrder fn s

/-- `Tree.PreOrder` (`tree.go` lines 92-94). -/
def Tree.PreOrder {σ : Type} (t : Tree) (fn : σ → Item → σ × Bool) (s : σ) : σ :=
  t.root.PreOrder fn s

/-- `Tree.PostOrder` (`tree.go` lines 98-100). -/
def Tree.PostOrder {σ : Type} (t : Tree) (fn : σ → Item → σ × Bool) (s : σ) : σ :=
  t.root.PostOrder fn s

/-! ### Specification-level definitions -/

/-- A visitor that appends every visited item to a list state and asks
to continue; feeding it to a traversal collects the visited items in
visiting order. -/
def collectVisitor : List Item → Item → List Item × Bool :=
  fun s x => (s ++ [x], true)

/-- A visitor that appends every visited item to a list state and
returns `false` (stop) on every call. -/
def stopVisitor : List Item → Item → List Item × Bool :=
  fun s x => (s ++ [x], false)

/-- The in-order item sequence of a subtree, as a list. -/
def Node.inOrderList : Node → List Item
  | .nil => []
  | .node v l r _ => l.inOrderList ++ v :: r.inOrderList

/-- Binary-search-tree property: at every node, all keys in the left
subtree are strictly below the node's key and all keys in the right
subtree strictly above. -/
def Node.BST : Node → Prop
  | .nil => True
  | .node v l r _ =>
    (∀ e ∈ l.inOrderList, e.key < v.key) ∧
    (∀ e ∈ r.inOrderList, v.key < e.key) ∧ l.BST ∧ r.BST

/-- Recomputed (true) height of a subtree: 0 for the empty subtree,
1 + max of the children's true heights otherwise. -/
def Node.realHeight : Node → Int
  | .nil => 0
  | .node _ l r _ => max l.realHeight r.realHeight + 1

/-- Every cached `h` field equals one plus the maximum of the children's
true heights. -/
def Node.Hgood : Node → Prop
  | .nil => True
  | .node _ l r h => h = max l.realHeight r.realHeight + 1 ∧ l.Hgood ∧ r.Hgood

/-- AVL balance: at every node the children's true heights differ by at
most one. -/
def Node.Bal : Node → Prop
  | .nil => True
  | .node _ l r _ =>
    l.realHeight ≤ r.realHeight + 1 ∧ r.realHeight ≤ l.realHeight + 1 ∧
    l.Bal ∧ r.Bal

/-- Trees obtainable from the empty tree by a finite sequence of the
modifying operations `Insert`, `Update`, `Delete`. -/
inductive Reachable : Tree → Prop where
  | empty : Reachable Tree.empty
  | insert (t : Tree) (x : Item) : Reachable t → Reachable (t.Insert x).1
  | update (t : Tree) (x : Item) : Reachable t → Reachable (t.Update x).1
  | delete (t : Tree) (x : Item) : Reachable t → Reachable (t.Delete x).1

/-! ### Sanity checks of the embedding against the repository's own
tests (`node_test.go` `TestBalance`, `ExampleTree` in `part_000`). -/

/-- Items used by the sanity checks: key only, payload 0, mirroring
`IntItem`. -/
def it (k : Int) : Item :=
  ⟨k, 0⟩

/-- Build a node-layer tree by successive inserts, as `buildTree` in
`node_test.go` does. -/
def buildNode (ks : List Int) : Node :=
  ks.foldl (fun n k => (n.Insert (it k)).1) .nil

/-- A small sample tree used by concrete witnesses: the Go zero-value
tree with items of keys 2, 1, 3 inserted in that order. -/
def sampleTree : Tree :=
  (((Tree.empty.Insert ⟨2, 0⟩).1.Insert ⟨1, 0⟩).1.Insert ⟨3, 0⟩).1

/-- Sanity: inserting 1..5 yields pre-order 2,1,4,3,5 and in-order
1..5, matching the `left-left` case of `TestBalance`. -/
theorem sanity_balance_left_left :
    (buildNode [1, 2, 3, 4, 5]).PreOrder collectVisitor [] =
      [it 2, it 1, it 4, it 3, it 5] ∧
    (buildNode [1, 2, 3, 4, 5]).InOrder collectVisitor [] =
      [it 1, it 2, it 3, it 4, it 5] := by
  constructor <;> decide

/-- Sanity: inserting 5,4,3,2,1 yields pre-order 4,2,1,3,5, matching
the `right-right` case of `TestBalance`. -/
theorem sanity_balance_right_right :
    (buildNode [5, 4, 3, 2, 1]).PreOrder collectVisitor [] =
      [it 4, it 2, it 1, it 3, it 5] := by
  decide

/-- Sanity: inserting 3,1,2 (left-right rotation) yields pre-order
2,1,3 and post-order 1,3,2, matching the `left-right` case of
`TestBalance`. -/
theorem sanity_balance_left_right :
    (buildNode [3, 1, 2]).PreOrder collectVisitor [] = [it 2, it 1, it 3] ∧
    (buildNode [3, 1, 2]).PostOrder collectVisitor [] = [it 1, it 3, it 2] := by
  constructor <;> decide


/-! ### Basic facts about the embedding -/

theorem goMax_eq_max (a b : Int) : goMax a b = max a b := by
  simp only [goMax]
  split <;> omega

theorem Node.realHeight_nonneg : ∀ n : Node, 0 ≤ n.realHeight
  | .nil => le_refl 0
  | .node _ l r _ => by
    have hl := realHeight_nonneg l
    have hr := realHeight_nonneg r
    simp only [Node.realHeight]
    omega

theorem Node.realHeight_nil : (Node.nil).realHeight = 0 := rfl

theorem Node.realHeight_node (v : Item) (l r : Node) (h : Int) :
    (Node.node v l r h).realHeight = max l.realHeight r.realHeight + 1 := rfl

theorem Node.eq_nil_of_realHeight_nonpos : ∀ n : Node, n.realHeight ≤ 0 → n = .nil
  | .nil, _ => rfl
  | .node v l r h, hle => by
    have hl := Node.realHeight_nonneg l
    have hr := Node.realHeight_nonneg r
    rw [Node.realHeight_node] at hle
    omega

theorem Node.height_eq : ∀ n : Node, n.Hgood → n.height = n.realHeight
  | .nil, _ => rfl
  | .node _ l r h, hg => by
    simp only [Node.height, Node.realHeight]
    exact hg.1

theorem Node.height_node (v : Item) (l r : Node) (h : Int) :
    (Node.node v l r h).height = h :=
  rfl

theorem Node.hgood_node {v : Item} {l r : Node} {h : Int} :
    (Node.node v l r h).Hgood ↔
      h = max l.realHeight r.realHeight + 1 ∧ l.Hgood ∧ r.Hgood :=
  Iff.rfl

theorem Node.bal_node {v : Item} {l r : Node} {h : Int} :
    (Node.node v l r h).Bal ↔
      l.realHeight ≤ r.realHeight + 1 ∧ r.realHeight ≤ l.realHeight + 1 ∧
      l.Bal ∧ r.Bal :=
  Iff.rfl

theorem Node.bst_node {v : Item} {l r : Node} {h : Int} :
    (Node.node v l r h).BST ↔
      (∀ e ∈ l.inOrderList, e.key < v.key) ∧
      (∀ e ∈ r.inOrderList, v.key < e.key) ∧ l.BST ∧ r.BST :=
  Iff.rfl

/-! ### The in-order item list through the restructuring helpers -/

theorem Node.inOrderList_adjustHeight (n : Node) :
    n.adjustHeight.inOrderList = n.inOrderList := by
  cases n <;> rfl

theorem Node.inOrderList_rotateRight (n : Node) :
    n.rotateRight.inOrderList = n.inOrderList := by
  match n with
  | .nil => rfl
  | .node _ .nil _ _ => rfl
  | .node v (.node lv ll lr lh) r h =>
    simp [Node.rotateRight, Node.inOrderList]

theorem Node.inOrderList_rotateLeft (n : Node) :
    n.rotateLeft.inOrderList = n.inOrderList := by
  match n with
  | .nil => rfl
  | .node _ _ .nil _ => rfl
  | .node v l (.node rv rl rr rh) h =>
    simp [Node.rotateLeft, Node.inOrderList]

theorem Node.rebalance_node_eq (v : Item) (l r : Node) (h : Int) :
    (Node.node v l r h).rebalance =
      if r.height - l.height < -1 ∧ l.balance ≤ 0 then
        (Node.node v l r h).rotateRight
      else if r.height - l.height > 1 ∧ 0 ≤ r.balance then
        (Node.node v l r h).rotateLeft
      else if r.height - l.height < -1 ∧ 0 < l.balance then
        (Node.node v l.rotateLeft r h).rotateRight
      else if r.height - l.height > 1 ∧ r.balance < 0 then
        (Node.node v l r.rotateRight h).rotateLeft
      else Node.node v l r h := by
  simp [Node.rebalance, Node.balance]

theorem Node.inOrderList_rebalance (n : Node) :
    n.rebalance.inOrderList = n.inOrderList := by
  cases n with
  | nil => rfl
  | node v l r h =>
    rw [Node.rebalance_node_eq]
    split_ifs <;>
      simp [Node.inOrderList_rotateRight, Node.inOrderList_rotateLeft,
        Node.inOrderList]

/-! ### Collecting traversals -/

theorem Node.InOrder_collect : ∀ (n : Node) (s : List Item),
    n.InOrder collectVisitor s = s ++ n.inOrderList
  | .nil, s => by simp [Node.InOrder, Node.inOrderList]
  | .node v l r h, s => by
    simp [Node.InOrder, collectVisitor, Node.inOrderList,
      Node.InOrder_collect l, Node.InOrder_collect r]

/-! ### BST as sortedness of the in-order list -/

theorem Node.bst_iff_pairwise : ∀ n : Node,
    n.BST ↔ n.inOrderList.Pairwise (fun a b => a.key < b.key)
  | .nil => by simp [Node.BST, Node.inOrderList]
  | .node v l r h => by
    simp only [Node.bst_node, Node.inOrderList, List.pairwise_append,
      List.pairwise_cons, Node.bst_iff_pairwise l, Node.bst_iff_pairwise r]
    constructor
    · rintro ⟨hlv, hvr, hl, hr⟩
      refine ⟨hl, ⟨hvr, hr⟩, ?_⟩
      intro a ha b hb
      rcases List.mem_cons.1 hb with rfl | hb
      · exact hlv a ha
      · exact lt_trans (hlv a ha) (hvr b hb)
    · rintro ⟨hl, ⟨hvr, hr⟩, hcross⟩
      exact ⟨fun a ha => hcross a ha v (List.mem_cons_self _ _), hvr, hl, hr⟩

theorem Node.bst_key_inj {n : Node} (hb : n.BST) :
    ∀ e ∈ n.inOrderList, ∀ f ∈ n.inOrderList, e.key = f.key → e = f := by
  have hp := (Node.bst_iff_pairwise n).1 hb
  have hs : (n.inOrderList).Pairwise (fun a b : Item => a.key ≠ b.key) :=
    hp.imp (fun hlt => by omega)
  have hsym : Symmetric (fun a b : Item => a.key ≠ b.key) :=
    fun a b hab => fun hba => hab hba.symm
  intro e he f hf hk
  by_contra hne
  exact hs.forall hsym he hf hne hk

theorem Node.bst_nodup {n : Node} (hb : n.BST) : n.inOrderList.Nodup :=
  ((Node.bst_iff_pairwise n).1 hb).imp (fun hlt => by
    intro hEq
    rw [hEq] at hlt
    omega)

/-! ### Max and Min -/

theorem Node.Max_spec : ∀ n : Node, n.BST →
    (n.Max = none → n = .nil) ∧
    ∀ m, n.Max = some m →
      m ∈ n.inOrderList ∧ ∀ e ∈ n.inOrderList, e.key ≤ m.key
  | .nil, _ => ⟨fun _ => rfl, by simp [Node.Max]⟩
  | .node v l .nil h, hb => by
    obtain ⟨hlv, _, _, _⟩ := hb
    refine ⟨fun hc => by simp [Node.Max] at hc, ?_⟩
    intro m hm
    have hm' : m = v := by simpa [Node.Max] using hm.symm
    subst hm'
    constructor
    · simp [Node.inOrderList]
    · intro e he
      simp [Node.inOrderList] at he
      rcases he with he | rfl
      · exact le_of_lt (hlv e he)
      · exact le_refl _
  | .node v l (.node rv rl rr rh) h, hb => by
    obtain ⟨hlv, hvr, _, hbr⟩ := hb
    have ih := Node.Max_spec (.node rv rl rr rh) hbr
    have hMax : (Node.node v l (.node rv rl rr rh) h).Max =
        (Node.node rv rl rr rh).Max := rfl
    refine ⟨fun hc => ?_, ?_⟩
    · rw [hMax] at hc
      exact absurd (ih.1 hc) (by simp)
    · intro m hm
      rw [hMax] at hm
      obtain ⟨hmem, hub⟩ := ih.2 m hm
      have hvm : v.key < m.key := hvr m hmem
      constructor
      · simp [Node.inOrderList]
        right; right
        simpa [Node.inOrderList] using hmem
      · intro e he
        simp [Node.inOrderList] at he
        rcases he with he | rfl | he
        · exact le_of_lt (lt_trans (hlv e he) hvm)
        · exact le_of_lt hvm
        · exact hub e (by simpa [Node.inOrderList] using he)

theorem Node.Min_spec : ∀ n : Node, n.BST →
    (n.Min = none → n = .nil) ∧
    ∀ m, n.Min = some m →
      m ∈ n.inOrderList ∧ ∀ e ∈ n.inOrderList, m.key ≤ e.key
  | .nil, _ => ⟨fun _ => rfl, by simp [Node.Min]⟩
  | .node v .nil r h, hb => by
    obtain ⟨_, hvr, _, _⟩ := hb
    refine ⟨fun hc => by simp [Node.Min] at hc, ?_⟩
    intro m hm
    have hm' : m = v := by simpa [Node.Min] using hm.symm
    subst hm'
    constructor
    · simp [Node.inOrderList]
    · intro e he
      simp [Node.inOrderList] at he
      rcases he with rfl | he
      · exact le_refl _
      · exact le_of_lt (hvr e he)
  | .node v (.node lv ll lr lh) r h, hb => by
    obtain ⟨hlv, hvr, hbl, _⟩ := hb
    have ih := Node.Min_spec (.node lv ll lr lh) hbl
    refine ⟨fun hc => absurd (ih.1 hc) (by simp), ?_⟩
    intro m hm
    obtain ⟨hmem, hlb⟩ := ih.2 m hm
    have hmv : m.key < v.key := hlv m hmem
    have hlist : (Node.node v (.node lv ll lr lh) r h).inOrderList =
        (Node.node lv ll lr lh).inOrderList ++ v :: r.inOrderList := rfl
    rw [hlist]
    constructor
    · exact List.mem_append_left _ hmem
    · intro e he
      rcases List.mem_append.1 he with he | he
      · exact hlb e he
      · rcases List.mem_cons.1 he with rfl | he
        · exact le_of_lt hmv
        · exact le_of_lt (lt_trans hmv (hvr e he))

/-! ### Search -/

theorem Node.Search_spec : ∀ n : Node, n.BST → ∀ x e : Item,
    (n.Search x = some e ↔ e ∈ n.inOrderList ∧ e.key = x.key)
  | .nil, _, x, e => by simp [Node.Search, Node.inOrderList]
  | .node v l r h, hb, x, e => by
    obtain ⟨hlv, hvr, hbl, hbr⟩ := hb
    have ihl := Node.Search_spec l hbl x e
    have ihr := Node.Search_spec r hbr x e
    simp only [Node.Search]
    rcases lt_trichotomy x.key v.key with h1 | h1 | h1
    · rw [if_pos (by simp [Item.compare]; omega), ihl]
      simp only [Node.inOrderList, List.mem_append, List.mem_cons]
      constructor
      · rintro ⟨he, hk⟩
        exact ⟨Or.inl he, hk⟩
      · rintro ⟨he | he | he, hk⟩
        · exact ⟨he, hk⟩
        · subst he
          omega
        · exact absurd hk (by have := hvr e he; omega)
    · rw [if_neg (by simp [Item.compare]; omega),
        if_neg (by simp [Item.compare]; omega)]
      simp only [Node.inOrderList, List.mem_append, List.mem_cons,
        Option.some_inj]
      constructor
      · rintro rfl
        exact ⟨Or.inr (Or.inl rfl), by omega⟩
      · rintro ⟨he | he | he, hk⟩
        · exact absurd hk (by have := hlv e he; omega)
        · exact he.symm
        · exact absurd hk (by have := hvr e he; omega)
    · rw [if_neg (by simp [Item.compare]; omega),
        if_pos (by simp [Item.compare]; omega), ihr]
      simp only [Node.inOrderList, List.mem_append, List.mem_cons]
      constructor
      · rintro ⟨he, hk⟩
        exact ⟨Or.inr (Or.inr he), hk⟩
      · rintro ⟨he | he | he, hk⟩
        · exact absurd hk (by have := hlv e he; omega)
        · subst he
          omega
        · exact ⟨he, hk⟩

theorem Node.search_none_iff {n : Node} (hb : n.BST) (x : Item) :
    n.Search x = none ↔ ∀ e ∈ n.inOrderList, e.key ≠ x.key := by
  constructor
  · intro hn e he hk
    have hs := (Node.Search_spec n hb x e).2 ⟨he, hk⟩
    rw [hn] at hs
    exact Option.noConfusion hs
  · intro habs
    cases hs : n.Search x with
    | none => rfl
    | some e =>
      have hmem := (Node.Search_spec n hb x e).1 hs
      exact absurd hmem.2 (habs e hmem.1)

/-! ### Second components of Insert and Delete -/

theorem Node.Insert_snd : ∀ (n : Node) (x : Item), (n.Insert x).2 = n.Search x
  | .nil, _ => rfl
  | .node v l r h, x => by
    simp only [Node.Insert, Node.Search]
    by_cases h1 : Item.compare x v < 0
    · rw [if_pos h1, if_pos h1]
      rw [← Node.Insert_snd l x]
      rcases hp : l.Insert x with ⟨m, me⟩
      cases me <;> simp
    · rw [if_neg h1, if_neg h1]
      by_cases h2 : Item.compare x v > 0
      · rw [if_pos h2, if_pos h2]
        rw [← Node.Insert_snd r x]
        rcases hp : r.Insert x with ⟨m, me⟩
        cases me <;> simp
      · rw [if_neg h2, if_neg h2]

theorem Node.Insert_found : ∀ (n : Node) (x e : Item),
    (n.Insert x).2 = some e → (n.Insert x).1 = n
  | .nil, x, e => by
    intro hc
    exact Option.noConfusion hc
  | .node v l r h, x, e => by
    intro hfound
    simp only [Node.Insert] at hfound ⊢
    by_cases h1 : Item.compare x v < 0
    · rw [if_pos h1] at hfound ⊢
      rcases hp : l.Insert x with ⟨m, me⟩
      rw [hp] at hfound
      cases me with
      | none => exact Option.noConfusion hfound
      | some f => rfl
    · rw [if_neg h1] at hfound ⊢
      by_cases h2 : Item.compare x v > 0
      · rw [if_pos h2] at hfound ⊢
        rcases hp : r.Insert x with ⟨m, me⟩
        rw [hp] at hfound
        cases me with
        | none => exact Option.noConfusion hfound
        | some f => rfl
      · rw [if_neg h2] at hfound ⊢

theorem Node.Delete_snd : ∀ (n : Node) (x : Item), (n.Delete x).2 = n.Search x
  | .nil, x => by simp [Node.Delete, Node.Search]
  | .node v l r h, x => by
    simp only [Node.Delete, Node.Search]
    by_cases h1 : Item.compare x v < 0
    · rw [if_pos h1, if_pos h1]
      rw [← Node.Delete_snd l x]
      rcases hp : l.Delete x with ⟨m, me⟩
      cases me <;> simp
    · rw [if_neg h1, if_neg h1]
      by_cases h2 : Item.compare x v > 0
      · rw [if_pos h2, if_pos h2]
        rw [← Node.Delete_snd r x]
        rcases hp : r.Delete x with ⟨m, me⟩
        cases me <;> simp
      · rw [if_neg h2, if_neg h2]
        split <;> rfl

theorem Node.Delete_not_found : ∀ (n : Node) (x : Item),
    (n.Delete x).2 = none → (n.Delete x).1 = n
  | .nil, x => fun _ => by simp [Node.Delete]
  | .node v l r h, x => by
    intro hnone
    simp only [Node.Delete] at hnone ⊢
    by_cases h1 : Item.compare x v < 0
    · rw [if_pos h1] at hnone ⊢
      rcases hp : l.Delete x with ⟨m, me⟩
      rw [hp] at hnone
      cases me with
      | none => rfl
      | some f => exact Option.noConfusion hnone
    · rw [if_neg h1] at hnone ⊢
      by_cases h2 : Item.compare x v > 0
      · rw [if_pos h2] at hnone ⊢
        rcases hp : r.Delete x with ⟨m, me⟩
        rw [hp] at hnone
        cases me with
        | none => rfl
        | some f => exact Option.noConfusion hnone
      · rw [if_neg h2] at hnone ⊢
        split at hnone <;> exact absurd hnone (by simp)

/-! ### Rotations and rebalancing preserve the height invariants -/

theorem Node.rotateRight_eq (v lv : Item) (ll lr r : Node) (lh h : Int)
    (hll : ll.Hgood) (hlr : lr.Hgood) (hr : r.Hgood) :
    (Node.node v (Node.node lv ll lr lh) r h).rotateRight =
      Node.node lv ll
        (Node.node v lr r (max lr.realHeight r.realHeight + 1))
        (max ll.realHeight (max lr.realHeight r.realHeight + 1) + 1) := by
  simp [Node.rotateRight, Node.height_node, goMax_eq_max,
    Node.height_eq ll hll, Node.height_eq lr hlr, Node.height_eq r hr]

theorem Node.rotateLeft_eq (v rv : Item) (l rl rr : Node) (rh h : Int)
    (hl : l.Hgood) (hrl : rl.Hgood) (hrr : rr.Hgood) :
    (Node.node v l (Node.node rv rl rr rh) h).rotateLeft =
      Node.node rv
        (Node.node v l rl (max l.realHeight rl.realHeight + 1)) rr
        (max (max l.realHeight rl.realHeight + 1) rr.realHeight + 1) := by
  simp [Node.rotateLeft, Node.height_node, goMax_eq_max,
    Node.height_eq l hl, Node.height_eq rl hrl, Node.height_eq rr hrr]

theorem Node.rebalance_spec (v : Item) (l r : Node) (h0 : Int)
    (hlH : l.Hgood) (hrH : r.Hgood) (hlB : l.Bal) (hrB : r.Bal)
    (hd1 : l.realHeight ≤ r.realHeight + 2)
    (hd2 : r.realHeight ≤ l.realHeight + 2) :
    ((Node.node v l r h0).adjustHeight).rebalance.Hgood ∧
    ((Node.node v l r h0).adjustHeight).rebalance.Bal ∧
    ((Node.node v l r h0).adjustHeight).rebalance.realHeight ≤
      max l.realHeight r.realHeight + 1 ∧
    max l.realHeight r.realHeight ≤
      ((Node.node v l r h0).adjustHeight).rebalance.realHeight ∧
    (l.realHeight ≤ r.realHeight + 1 → r.realHeight ≤ l.realHeight + 1 →
      ((Node.node v l r h0).adjustHeight).rebalance =
        Node.node v l r (max l.realHeight r.realHeight + 1)) := by
  have hLh := Node.height_eq l hlH
  have hRh := Node.height_eq r hrH
  have hadj : (Node.node v l r h0).adjustHeight =
      Node.node v l r (max l.realHeight r.realHeight + 1) := by
    simp [Node.adjustHeight, goMax_eq_max, hLh, hRh]
  rw [hadj, Node.rebalance_node_eq, hLh, hRh]
  by_cases hbal : l.realHeight ≤ r.realHeight + 1 ∧ r.realHeight ≤ l.realHeight + 1
  · rw [if_neg (by omega), if_neg (by omega), if_neg (by omega),
      if_neg (by omega)]
    refine ⟨⟨rfl, hlH, hrH⟩, ⟨hbal.1, hbal.2, hlB, hrB⟩, ?_, ?_,
      fun _ _ => rfl⟩
    · simp [Node.realHeight_node]
    · simp [Node.realHeight_node]
  · rcases lt_or_le (r.realHeight) (l.realHeight) with hside | hside
    · -- left-heavy: l.realHeight = r.realHeight + 2
      have hlr2 : l.realHeight = r.realHeight + 2 := by omega
      have hrnn := Node.realHeight_nonneg r
      cases l with
      | nil =>
        rw [Node.realHeight_nil] at hlr2
        omega
      | node lv ll lr lh =>
        obtain ⟨hlhEq, hllH, hlrH⟩ := hlH
        obtain ⟨hlb1, hlb2, hllB, hlrB⟩ := hlB
        have hllh := Node.height_eq ll hllH
        have hlrh := Node.height_eq lr hlrH
        rw [Node.realHeight_node] at hlr2
        have hbalL : (Node.node lv ll lr lh).balance =
            lr.realHeight - ll.realHeight := by
          simp [Node.balance, hllh, hlrh]
        rcases le_or_lt (lr.realHeight) (ll.realHeight) with hcase | hcase
        · -- single right rotation
          rw [if_pos ⟨by simp only [Node.realHeight_node]; omega,
            by rw [hbalL]; omega⟩]
          rw [Node.rotateRight_eq v lv ll lr r lh _ hllH hlrH hrH]
          have hllGE : ll.realHeight = r.realHeight + 1 := by omega
          refine ⟨⟨rfl, hllH, rfl, hlrH, hrH⟩,
            ⟨?_, ?_, hllB, ?_, ?_, hlrB, hrB⟩, ?_, ?_, ?_⟩
          · simp only [Node.realHeight_node]
            omega
          · simp only [Node.realHeight_node]
            omega
          · omega
          · omega
          · simp only [Node.realHeight_node]
            omega
          · simp only [Node.realHeight_node]
            omega
          · intro hc _
            exact absurd hc (by simp only [Node.realHeight_node]; omega)
        · -- double rotation: rotate the left child left, then right
          rw [if_neg (by rw [hbalL]; intro hc; omega),
            if_neg (by simp only [Node.realHeight_node]; intro hc; omega),
            if_pos ⟨by simp only [Node.realHeight_node]; omega,
              by rw [hbalL]; omega⟩]
          have hlr1 : lr.realHeight = ll.realHeight + 1 := by omega
          have hlrpos : 0 < lr.realHeight :=
            lt_of_le_of_lt (Node.realHeight_nonneg ll) (by omega)
          cases lr with
          | nil =>
            rw [Node.realHeight_nil] at hlrpos
            omega
          | node lrv lrl lrr lrh2 =>
            obtain ⟨hlrhEq, hlrlH, hlrrH⟩ := hlrH
            obtain ⟨hlrb1, hlrb2, hlrlB, hlrrB⟩ := hlrB
            rw [Node.rotateLeft_eq lv lrv ll lrl lrr lrh2 lh hllH hlrlH hlrrH]
            rw [Node.rotateRight_eq v lrv
              (Node.node lv ll lrl (max ll.realHeight lrl.realHeight + 1))
              lrr r _ _ ⟨rfl, hllH, hlrlH⟩ hlrrH hrH]
            simp only [Node.realHeight_node] at hlr2 hlr1 ⊢
            refine ⟨⟨?_, ⟨rfl, hllH, hlrlH⟩, rfl, hlrrH, hrH⟩,
              ⟨?_, ?_, ⟨?_, ?_, hllB, hlrlB⟩, ?_, ?_, hlrrB, hrB⟩,
              ?_, ?_, ?_⟩
            all_goals try intro hc hc2
            all_goals try simp only [Node.realHeight_node]
            all_goals try omega
    · -- right-heavy: r.realHeight = l.realHeight + 2
      have hrl2 : r.realHeight = l.realHeight + 2 := by omega
      have hlnn := Node.realHeight_nonneg l
      cases r with
      | nil =>
        rw [Node.realHeight_nil] at hrl2
        omega
      | node rv rl rr rh =>
        obtain ⟨hrhEq, hrlH, hrrH⟩ := hrH
        obtain ⟨hrb1, hrb2, hrlB, hrrB⟩ := hrB
        have hrlh := Node.height_eq rl hrlH
        have hrrh := Node.height_eq rr hrrH
        rw [Node.realHeight_node] at hrl2
        have hbalR : (Node.node rv rl rr rh).balance =
            rr.realHeight - rl.realHeight := by
          simp [Node.balance, hrlh, hrrh]
        rcases le_or_lt (rl.realHeight) (rr.realHeight) with hcase | hcase
        · -- single left rotation
          rw [if_neg (by simp only [Node.realHeight_node]; intro hc; omega),
            if_pos ⟨by simp only [Node.realHeight_node]; omega,
              by rw [hbalR]; omega⟩]
          rw [Node.rotateLeft_eq v rv l rl rr rh _ hlH hrlH hrrH]
          refine ⟨⟨rfl, ⟨rfl, hlH, hrlH⟩, hrrH⟩,
            ⟨?_, ?_, ⟨?_, ?_, hlB, hrlB⟩, hrrB⟩, ?_, ?_, ?_⟩
          · simp only [Node.realHeight_node]
            omega
          · simp only [Node.realHeight_node]
            omega
          · omega
          · omega
          · simp only [Node.realHeight_node]
            omega
          · simp only [Node.realHeight_node]
            omega
          · intro _ hc
            exact absurd hc (by simp only [Node.realHeight_node]; omega)
        · -- double rotation: rotate the right child right, then left
          rw [if_neg (by simp only [Node.realHeight_node]; intro hc; omega),
            if_neg (by rw [hbalR]; intro hc; omega),
            if_neg (by simp only [Node.realHeight_node]; intro hc; omega),
            if_pos ⟨by simp only [Node.realHeight_node]; omega,
              by rw [hbalR]; omega⟩]
          have hrl1 : rl.realHeight = rr.realHeight + 1 := by omega
          have hrlpos : 0 < rl.realHeight :=
            lt_of_le_of_lt (Node.realHeight_nonneg rr) (by omega)
          cases rl with
          | nil =>
            rw [Node.realHeight_nil] at hrlpos
            omega
          | node rlv rll rlr rlh2 =>
            obtain ⟨hrlhEq, hrllH, hrlrH⟩ := hrlH
            obtain ⟨hrlb1, hrlb2, hrllB, hrlrB⟩ := hrlB
            rw [Node.rotateRight_eq rv rlv rll rlr rr rlh2 rh hrllH hrlrH hrrH]
            rw [Node.rotateLeft_eq v rlv l rll
              (Node.node rv rlr rr (max rlr.realHeight rr.realHeight + 1))
              _ _ hlH hrllH ⟨rfl, hrlrH, hrrH⟩]
            simp only [Node.realHeight_node] at hrl2 hrl1 ⊢
            refine ⟨⟨?_, ⟨rfl, hlH, hrllH⟩, rfl, hrlrH, hrrH⟩,
              ⟨?_, ?_, ⟨?_, ?_, hlB, hrllB⟩, ?_, ?_, hrlrB, hrrB⟩,
              ?_, ?_, ?_⟩
            all_goals try intro hc hc2
            all_goals try simp only [Node.realHeight_node]
            all_goals try omega

/-! ### Case equations for the modifying operations -/

theorem Node.Insert_nil (x : Item) :
    (Node.nil).Insert x = (Node.node x .nil .nil 1, none) :=
  rfl

theorem Node.Insert_lt_found (v : Item) (l r : Node) (h : Int) (x : Item)
    (m : Node) (f : Item) (hx : Item.compare x v < 0)
    (hp : l.Insert x = (m, some f)) :
    (Node.node v l r h).Insert x = (Node.node v l r h, some f) := by
  simp only [Node.Insert, if_pos hx, hp]

theorem Node.Insert_lt_new (v : Item) (l r : Node) (h : Int) (x : Item)
    (m : Node) (hx : Item.compare x v < 0) (hp : l.Insert x = (m, none)) :
    (Node.node v l r h).Insert x =
      (((Node.node v m r h).adjustHeight).rebalance, none) := by
  simp only [Node.Insert, if_pos hx, hp]

theorem Node.Insert_gt_found (v : Item) (l r : Node) (h : Int) (x : Item)
    (m : Node) (f : Item) (hx : Item.compare x v > 0)
    (hp : r.Insert x = (m, some f)) :
    (Node.node v l r h).Insert x = (Node.node v l r h, some f) := by
  simp only [Node.Insert, if_neg (by omega : ¬ Item.compare x v < 0),
    if_pos hx, hp]

theorem Node.Insert_gt_new (v : Item) (l r : Node) (h : Int) (x : Item)
    (m : Node) (hx : Item.compare x v > 0) (hp : r.Insert x = (m, none)) :
    (Node.node v l r h).Insert x =
      (((Node.node v l m h).adjustHeight).rebalance, none) := by
  simp only [Node.Insert, if_neg (by omega : ¬ Item.compare x v < 0),
    if_pos hx, hp]

theorem Node.Insert_here (v : Item) (l r : Node) (h : Int) (x : Item)
    (hx : Item.compare x v = 0) :
    (Node.node v l r h).Insert x = (Node.node v l r h, some v) := by
  simp only [Node.Insert, if_neg (by omega : ¬ Item.compare x v < 0),
    if_neg (by omega : ¬ Item.compare x v > 0)]

theorem Node.Update_nil (x : Item) :
    (Node.nil).Update x = (Node.node x .nil .nil 1, none) :=
  rfl

theorem Node.Update_lt (v : Item) (l r : Node) (h : Int) (x : Item)
    (hx : Item.compare x v < 0) :
    (Node.node v l r h).Update x =
      (((Node.node v (l.Update x).1 r h).adjustHeight).rebalance, none) := by
  simp only [Node.Update, if_pos hx]

theorem Node.Update_gt (v : Item) (l r : Node) (h : Int) (x : Item)
    (hx : Item.compare x v > 0) :
    (Node.node v l r h).Update x =
      (((Node.node v l (r.Insert x).1 h).adjustHeight).rebalance, none) := by
  simp only [Node.Update, if_neg (by omega : ¬ Item.compare x v < 0),
    if_pos hx]

theorem Node.Update_here (v : Item) (l r : Node) (h : Int) (x : Item)
    (hx : Item.compare x v = 0) :
    (Node.node v l r h).Update x =
      (((Node.node x l r h).adjustHeight).rebalance, none) := by
  simp only [Node.Update, if_neg (by omega : ¬ Item.compare x v < 0),
    if_neg (by omega : ¬ Item.compare x v > 0)]

theorem Node.Update_snd : ∀ (n : Node) (x : Item), (n.Update x).2 = none
  | .nil, _ => rfl
  | .node v l r h, x => by
    simp only [Node.Update]

theorem Node.Delete_nil (x : Item) : (Node.nil).Delete x = (.nil, none) := by
  simp [Node.Delete]

theorem Node.Delete_lt_miss (v : Item) (l r : Node) (h : Int) (x : Item)
    (m : Node) (hx : Item.compare x v < 0) (hp : l.Delete x = (m, none)) :
    (Node.node v l r h).Delete x = (Node.node v l r h, none) := by
  simp only [Node.Delete, if_pos hx, hp]

theorem Node.Delete_lt_hit (v : Item) (l r : Node) (h : Int) (x : Item)
    (m : Node) (f : Item) (hx : Item.compare x v < 0)
    (hp : l.Delete x = (m, some f)) :
    (Node.node v l r h).Delete x =
      (((Node.node v m r h).adjustHeight).rebalance, some f) := by
  simp only [Node.Delete, if_pos hx, hp]

theorem Node.Delete_gt_miss (v : Item) (l r : Node) (h : Int) (x : Item)
    (m : Node) (hx : Item.compare x v > 0) (hp : r.Delete x = (m, none)) :
    (Node.node v l r h).Delete x = (Node.node v l r h, none) := by
  simp only [Node.Delete, if_neg (by omega : ¬ Item.compare x v < 0),
    if_pos hx, hp]

theorem Node.Delete_gt_hit (v : Item) (l r : Node) (h : Int) (x : Item)
    (m : Node) (f : Item) (hx : Item.compare x v > 0)
    (hp : r.Delete x = (m, some f)) :
    (Node.node v l r h).Delete x =
      (((Node.node v l m h).adjustHeight).rebalance, some f) := by
  simp only [Node.Delete, if_neg (by omega : ¬ Item.compare x v < 0),
    if_pos hx, hp]

theorem Node.Delete_here_nil (v : Item) (l r : Node) (h : Int) (x : Item)
    (hx : Item.compare x v = 0) (hd : Node.destroy v l r h = .nil) :
    (Node.node v l r h).Delete x = (.nil, some v) := by
  simp only [Node.Delete, if_neg (by omega : ¬ Item.compare x v < 0),
    if_neg (by omega : ¬ Item.compare x v > 0), hd]

theorem Node.Delete_here_node (v : Item) (l r : Node) (h : Int) (x : Item)
    (a : Item) (b c : Node) (d : Int) (hx : Item.compare x v = 0)
    (hd : Node.destroy v l r h = Node.node a b c d) :
    (Node.node v l r h).Delete x =
      (((Node.node a b c d).adjustHeight).rebalance, some v) := by
  simp only [Node.Delete, if_neg (by omega : ¬ Item.compare x v < 0),
    if_neg (by omega : ¬ Item.compare x v > 0), hd]

theorem Node.destroy_leaf (v : Item) (h : Int) :
    Node.destroy v .nil .nil h = .nil := by
  simp [Node.destroy]

theorem Node.destroy_left (v lv : Item) (ll lr : Node) (lh h : Int) :
    Node.destroy v (Node.node lv ll lr lh) .nil h = Node.node lv ll lr lh := by
  simp [Node.destroy]

theorem Node.destroy_right (v rv : Item) (rl rr : Node) (rh h : Int) :
    Node.destroy v .nil (Node.node rv rl rr rh) h = Node.node rv rl rr rh := by
  simp [Node.destroy]

theorem Node.destroy_both (v lv rv : Item) (ll lr rl rr : Node)
    (lh rh h : Int) (m : Item) (hm : (Node.node lv ll lr lh).Max = some m) :
    Node.destroy v (Node.node lv ll lr lh) (Node.node rv rl rr rh) h =
      Node.node m ((Node.node lv ll lr lh).Delete m).1
        (Node.node rv rl rr rh) 0 := by
  simp only [Node.destroy, hm]

/-! ### Assembling sorted in-order lists -/

theorem pairwise_mid {v : Item} {ml rl : List Item}
    (hm : ml.Pairwise (fun a b => a.key < b.key))
    (hr : rl.Pairwise (fun a b => a.key < b.key))
    (h1 : ∀ e ∈ ml, e.key < v.key) (h2 : ∀ e ∈ rl, v.key < e.key) :
    (ml ++ v :: rl).Pairwise (fun a b => a.key < b.key) := by
  rw [List.pairwise_append]
  refine ⟨hm, ?_, ?_⟩
  · rw [List.pairwise_cons]
    exact ⟨h2, hr⟩
  · intro a ha b hb
    rcases List.mem_cons.1 hb with rfl | hb
    · exact h1 a ha
    · exact lt_trans (h1 a ha) (h2 b hb)

theorem Node.inOrderList_node (v : Item) (l r : Node) (h : Int) :
    (Node.node v l r h).inOrderList = l.inOrderList ++ v :: r.inOrderList :=
  rfl

theorem Node.reb_list (v : Item) (l r : Node) (h : Int) :
    (((Node.node v l r h).adjustHeight).rebalance).inOrderList =
      l.inOrderList ++ v :: r.inOrderList := by
  rw [Node.inOrderList_rebalance, Node.inOrderList_adjustHeight,
    Node.inOrderList_node]

/-! ### Insert preserves the invariants -/

set_option maxHeartbeats 1000000 in
theorem Node.Insert_ok (x : Item) : ∀ n : Node, n.Hgood → n.Bal → n.BST →
    ((n.Insert x).1.Hgood ∧ (n.Insert x).1.Bal ∧ (n.Insert x).1.BST ∧
     n.realHeight ≤ (n.Insert x).1.realHeight ∧
     (n.Insert x).1.realHeight ≤ n.realHeight + 1 ∧
     ∀ e, e ∈ (n.Insert x).1.inOrderList ↔
       e ∈ n.inOrderList ∨ ((n.Insert x).2 = none ∧ e = x))
  | .nil, _, _, _ => by
    rw [show ((Node.nil).Insert x).1 = Node.node x .nil .nil 1 from rfl,
      show ((Node.nil).Insert x).2 = none from rfl]
    refine ⟨⟨?_, trivial, trivial⟩, ⟨?_, ?_, trivial, trivial⟩,
      ⟨?_, ?_, trivial, trivial⟩, ?_, ?_, ?_⟩ <;>
      simp [Node.realHeight, Node.inOrderList]
  | .node v l r h, hH, hB, hS => by
    obtain ⟨hhEq, hlH, hrH⟩ := hH
    obtain ⟨hb1, hb2, hlB, hrB⟩ := hB
    obtain ⟨hlv, hvr, hlS, hrS⟩ := hS
    rcases lt_trichotomy x.key v.key with hx | hx | hx
    · -- x goes into the left subtree
      have hxc : Item.compare x v < 0 := by simp only [Item.compare]; omega
      obtain ⟨mH, mB, mS, mh1, mh2, mlist⟩ := Node.Insert_ok x l hlH hlB hlS
      rcases hp : l.Insert x with ⟨m, me⟩
      rw [hp] at mH mB mS mh1 mh2 mlist
      cases me with
      | some f =>
        have hfst : ((Node.node v l r h).Insert x).1 = Node.node v l r h := by
          rw [Node.Insert_lt_found v l r h x m f hxc hp]
        have hsnd : ((Node.node v l r h).Insert x).2 = some f := by
          rw [Node.Insert_lt_found v l r h x m f hxc hp]
        rw [hfst, hsnd]
        exact ⟨⟨hhEq, hlH, hrH⟩, ⟨hb1, hb2, hlB, hrB⟩,
          ⟨hlv, hvr, hlS, hrS⟩, le_refl _, by omega, fun e => by simp⟩
      | none =>
        have mH' : m.Hgood := mH
        have mB' : m.Bal := mB
        have mS' : m.BST := mS
        have mh1' : l.realHeight ≤ m.realHeight := mh1
        have mh2' : m.realHeight ≤ l.realHeight + 1 := mh2
        have mlist' : ∀ e, e ∈ m.inOrderList ↔ e ∈ l.inOrderList ∨ e = x := by
          intro e
          simpa using mlist e
        obtain ⟨rH, rB, rhU, rhL, rEq⟩ :=
          Node.rebalance_spec v m r h mH' hrH mB' hrB (by omega) (by omega)
        have hfst : ((Node.node v l r h).Insert x).1 =
            ((Node.node v m r h).adjustHeight).rebalance := by
          rw [Node.Insert_lt_new v l r h x m hxc hp]
        have hsnd : ((Node.node v l r h).Insert x).2 = none := by
          rw [Node.Insert_lt_new v l r h x m hxc hp]
        rw [hfst, hsnd]
        have hmb : ∀ e ∈ m.inOrderList, e.key < v.key := by
          intro e he
          rcases (mlist' e).1 he with he | rfl
          · exact hlv e he
          · omega
        refine ⟨rH, rB, ?_, ?_, ?_, ?_⟩
        · rw [Node.bst_iff_pairwise, Node.reb_list]
          exact pairwise_mid ((Node.bst_iff_pairwise m).1 mS')
            ((Node.bst_iff_pairwise r).1 hrS) hmb hvr
        · rw [Node.realHeight_node]
          by_cases hc : m.realHeight ≤ r.realHeight + 1 ∧
              r.realHeight ≤ m.realHeight + 1
          · rw [rEq hc.1 hc.2, Node.realHeight_node]
            omega
          · omega
        · rw [Node.realHeight_node]
          omega
        · intro e
          rw [Node.reb_list, Node.inOrderList_node]
          simp only [List.mem_append, List.mem_cons, mlist' e]
          tauto
    · -- x is stored at this node
      have hxc : Item.compare x v = 0 := by simp only [Item.compare]; omega
      have hfst : ((Node.node v l r h).Insert x).1 = Node.node v l r h := by
        rw [Node.Insert_here v l r h x hxc]
      have hsnd : ((Node.node v l r h).Insert x).2 = some v := by
        rw [Node.Insert_here v l r h x hxc]
      rw [hfst, hsnd]
      exact ⟨⟨hhEq, hlH, hrH⟩, ⟨hb1, hb2, hlB, hrB⟩,
        ⟨hlv, hvr, hlS, hrS⟩, le_refl _, by omega, fun e => by simp⟩
    · -- x goes into the right subtree
      have hxc : Item.compare x v > 0 := by simp only [Item.compare]; omega
      obtain ⟨mH, mB, mS, mh1, mh2, mlist⟩ := Node.Insert_ok x r hrH hrB hrS
      rcases hp : r.Insert x with ⟨m, me⟩
      rw [hp] at mH mB mS mh1 mh2 mlist
      cases me with
      | some f =>
        have hfst : ((Node.node v l r h).Insert x).1 = Node.node v l r h := by
          rw [Node.Insert_gt_found v l r h x m f hxc hp]
        have hsnd : ((Node.node v l r h).Insert x).2 = some f := by
          rw [Node.Insert_gt_found v l r h x m f hxc hp]
        rw [hfst, hsnd]
        exact ⟨⟨hhEq, hlH, hrH⟩, ⟨hb1, hb2, hlB, hrB⟩,
          ⟨hlv, hvr, hlS, hrS⟩, le_refl _, by omega, fun e => by simp⟩
      | none =>
        have mH' : m.Hgood := mH
        have mB' : m.Bal := mB
        have mS' : m.BST := mS
        have mh1' : r.realHeight ≤ m.realHeight := mh1
        have mh2' : m.realHeight ≤ r.realHeight + 1 := mh2
        have mlist' : ∀ e, e ∈ m.inOrderList ↔ e ∈ r.inOrderList ∨ e = x := by
          intro e
          simpa using mlist e
        obtain ⟨rH, rB, rhU, rhL, rEq⟩ :=
          Node.rebalance_spec v l m h hlH mH' hlB mB' (by omega) (by omega)
        have hfst : ((Node.node v l r h).Insert x).1 =
            ((Node.node v l m h).adjustHeight).rebalance := by
          rw [Node.Insert_gt_new v l r h x m hxc hp]
        have hsnd : ((Node.node v l r h).Insert x).2 = none := by
          rw [Node.Insert_gt_new v l r h x m hxc hp]
        rw [hfst, hsnd]
        have hmb : ∀ e ∈ m.inOrderList, v.key < e.key := by
          intro e he
          rcases (mlist' e).1 he with he | rfl
          · exact hvr e he
          · omega
        refine ⟨rH, rB, ?_, ?_, ?_, ?_⟩
        · rw [Node.bst_iff_pairwise, Node.reb_list]
          exact pairwise_mid ((Node.bst_iff_pairwise l).1 hlS)
            ((Node.bst_iff_pairwise m).1 mS') hlv hmb
        · rw [Node.realHeight_node]
          by_cases hc : l.realHeight ≤ m.realHeight + 1 ∧
              m.realHeight ≤ l.realHeight + 1
          · rw [rEq hc.1 hc.2, Node.realHeight_node]
            omega
          · omega
        · rw [Node.realHeight_node]
          omega
        · intro e
          rw [Node.reb_list, Node.inOrderList_node]
          simp only [List.mem_append, List.mem_cons, mlist' e]
          tauto

/-! ### Update preserves the invariants -/

set_option maxHeartbeats 1000000 in
theorem Node.Update_ok (x : Item) : ∀ n : Node, n.Hgood → n.Bal → n.BST →
    ((n.Update x).1.Hgood ∧ (n.Update x).1.Bal ∧ (n.Update x).1.BST ∧
     n.realHeight ≤ (n.Update x).1.realHeight ∧
     (n.Update x).1.realHeight ≤ n.realHeight + 1 ∧
     ∀ e ∈ (n.Update x).1.inOrderList, e ∈ n.inOrderList ∨ e = x)
  | .nil, _, _, _ => by
    rw [show ((Node.nil).Update x).1 = Node.node x .nil .nil 1 from rfl]
    refine ⟨⟨?_, trivial, trivial⟩, ⟨?_, ?_, trivial, trivial⟩,
      ⟨?_, ?_, trivial, trivial⟩, ?_, ?_, ?_⟩ <;>
      simp [Node.realHeight, Node.inOrderList]
  | .node v l r h, hH, hB, hS => by
    obtain ⟨hhEq, hlH, hrH⟩ := hH
    obtain ⟨hb1, hb2, hlB, hrB⟩ := hB
    obtain ⟨hlv, hvr, hlS, hrS⟩ := hS
    rcases lt_trichotomy x.key v.key with hx | hx | hx
    · -- descend left via Update
      have hxc : Item.compare x v < 0 := by simp only [Item.compare]; omega
      obtain ⟨mH, mB, mS, mh1, mh2, mlist⟩ := Node.Update_ok x l hlH hlB hlS
      obtain ⟨rH, rB, rhU, rhL, rEq⟩ :=
        Node.rebalance_spec v (l.Update x).1 r h mH hrH mB hrB
          (by omega) (by omega)
      have hfst : ((Node.node v l r h).Update x).1 =
          ((Node.node v (l.Update x).1 r h).adjustHeight).rebalance := by
        rw [Node.Update_lt v l r h x hxc]
      rw [hfst]
      have hmb : ∀ e ∈ (l.Update x).1.inOrderList, e.key < v.key := by
        intro e he
        rcases mlist e he with he | rfl
        · exact hlv e he
        · omega
      refine ⟨rH, rB, ?_, ?_, ?_, ?_⟩
      · rw [Node.bst_iff_pairwise, Node.reb_list]
        exact pairwise_mid ((Node.bst_iff_pairwise _).1 mS)
          ((Node.bst_iff_pairwise r).1 hrS) hmb hvr
      · rw [Node.realHeight_node]
        by_cases hc : (l.Update x).1.realHeight ≤ r.realHeight + 1 ∧
            r.realHeight ≤ (l.Update x).1.realHeight + 1
        · rw [rEq hc.1 hc.2, Node.realHeight_node]
          omega
        · omega
      · rw [Node.realHeight_node]
        omega
      · intro e he
        rw [Node.reb_list] at he
        rw [Node.inOrderList_node]
        simp only [List.mem_append, List.mem_cons] at he ⊢
        rcases he with he | he
        · rcases mlist e he with he | rfl
          · tauto
          · tauto
        · tauto
    · -- replace the stored value at this node
      have hxc : Item.compare x v = 0 := by simp only [Item.compare]; omega
      obtain ⟨rH, rB, rhU, rhL, rEq⟩ :=
        Node.rebalance_spec x l r h hlH hrH hlB hrB (by omega) (by omega)
      have hfst : ((Node.node v l r h).Update x).1 =
          ((Node.node x l r h).adjustHeight).rebalance := by
        rw [Node.Update_here v l r h x hxc]
      rw [hfst]
      refine ⟨rH, rB, ?_, ?_, ?_, ?_⟩
      · rw [Node.bst_iff_pairwise, Node.reb_list]
        refine pairwise_mid ((Node.bst_iff_pairwise l).1 hlS)
          ((Node.bst_iff_pairwise r).1 hrS) ?_ ?_
        · intro e he
          have := hlv e he
          omega
        · intro e he
          have := hvr e he
          omega
      · rw [Node.realHeight_node, rEq hb1 hb2, Node.realHeight_node]
      · rw [rEq hb1 hb2, Node.realHeight_node, Node.realHeight_node]
        omega
      · intro e he
        rw [Node.reb_list] at he
        rw [Node.inOrderList_node]
        simp only [List.mem_append, List.mem_cons] at he ⊢
        tauto
    · -- descend right via Insert (source asymmetry, part_001 line 110)
      have hxc : Item.compare x v > 0 := by simp only [Item.compare]; omega
      obtain ⟨mH, mB, mS, mh1, mh2, mlist⟩ := Node.Insert_ok x r hrH hrB hrS
      obtain ⟨rH, rB, rhU, rhL, rEq⟩ :=
        Node.rebalance_spec v l (r.Insert x).1 h hlH mH hlB mB
          (by omega) (by omega)
      have hfst : ((Node.node v l r h).Update x).1 =
          ((Node.node v l (r.Insert x).1 h).adjustHeight).rebalance := by
        rw [Node.Update_gt v l r h x hxc]
      rw [hfst]
      have hmb : ∀ e ∈ (r.Insert x).1.inOrderList, v.key < e.key := by
        intro e he
        rcases (mlist e).1 he with he | ⟨_, rfl⟩
        · exact hvr e he
        · omega
      refine ⟨rH, rB, ?_, ?_, ?_, ?_⟩
      · rw [Node.bst_iff_pairwise, Node.reb_list]
        exact pairwise_mid ((Node.bst_iff_pairwise l).1 hlS)
          ((Node.bst_iff_pairwise _).1 mS) hlv hmb
      · rw [Node.realHeight_node]
        by_cases hc : l.realHeight ≤ (r.Insert x).1.realHeight + 1 ∧
            (r.Insert x).1.realHeight ≤ l.realHeight + 1
        · rw [rEq hc.1 hc.2, Node.realHeight_node]
          omega
        · omega
      · rw [Node.realHeight_node]
        omega
      · intro e he
        rw [Node.reb_list] at he
        rw [Node.inOrderList_node]
        simp only [List.mem_append, List.mem_cons] at he ⊢
        rcases he with he | he
        · tauto
        · rcases he with rfl | he
          · tauto
          · rcases (mlist e).1 he with he | ⟨_, rfl⟩
            · tauto
            · tauto

/-! ### Helpers for Delete -/

theorem Node.adjust_self : ∀ n : Node, n.Hgood → n.adjustHeight = n
  | .nil, _ => rfl
  | .node v l r h, hg => by
    obtain ⟨hh, hlH, hrH⟩ := hg
    simp only [Node.adjustHeight, goMax_eq_max, Node.height_eq l hlH,
      Node.height_eq r hrH]
    rw [hh]

theorem Node.rebalance_self : ∀ n : Node, n.Hgood → n.Bal → n.rebalance = n
  | .nil, _, _ => rfl
  | .node v l r h, hg, hb => by
    obtain ⟨hh, hlH, hrH⟩ := hg
    obtain ⟨hb1, hb2, _, _⟩ := hb
    rw [Node.rebalance_node_eq, Node.height_eq l hlH, Node.height_eq r hrH]
    rw [if_neg (by omega), if_neg (by omega), if_neg (by omega),
      if_neg (by omega)]

theorem Node.Max_erase : ∀ n : Node, n.BST → ∀ m : Item, n.Max = some m →
    n.inOrderList.erase m ++ [m] = n.inOrderList
  | .nil, _, m, hm => by simp [Node.Max] at hm
  | .node v l .nil h, hb, m, hm => by
    obtain ⟨hlv, _, _, _⟩ := hb
    have hm' : m = v := by simpa [Node.Max] using hm.symm
    subst hm'
    have hnot : m ∉ l.inOrderList := fun hc => by have := hlv m hc; omega
    rw [Node.inOrderList_node]
    rw [show (Node.nil).inOrderList = ([] : List Item) from rfl]
    rw [List.erase_append_right _ hnot]
    simp
  | .node v l (.node rv rl rr rh) h, hb, m, hm => by
    obtain ⟨hlv, hvr, _, hbr⟩ := hb
    have hm2 : (Node.node rv rl rr rh).Max = some m := hm
    have ih := Node.Max_erase (.node rv rl rr rh) hbr m hm2
    have hmem : m ∈ (Node.node rv rl rr rh).inOrderList :=
      ((Node.Max_spec _ hbr).2 m hm2).1
    have hkv : v.key < m.key := hvr m hmem
    have hnotl : m ∉ l.inOrderList := fun hc => by have := hlv m hc; omega
    have hnotv : m ∉ ([v] : List Item) := by
      simp only [List.mem_singleton]
      intro hc
      subst hc
      omega
    rw [Node.inOrderList_node]
    rw [show (v :: (Node.node rv rl rr rh).inOrderList : List Item) =
      [v] ++ (Node.node rv rl rr rh).inOrderList from rfl]
    rw [← List.append_assoc, List.erase_append_right _ (by
      simp only [List.mem_append]
      rintro (hc | hc)
      · exact hnotl hc
      · exact hnotv hc)]
    rw [List.append_assoc, List.append_assoc, ih, ← List.append_assoc]

/-! ### Delete preserves the invariants -/

set_option maxHeartbeats 1600000 in
theorem Node.Delete_ok : ∀ (k : Nat) (n : Node), n.count ≤ k → ∀ x : Item,
    n.Hgood → n.Bal → n.BST →
    ((n.Delete x).1.Hgood ∧ (n.Delete x).1.Bal ∧ (n.Delete x).1.BST ∧
     n.realHeight - 1 ≤ (n.Delete x).1.realHeight ∧
     (n.Delete x).1.realHeight ≤ n.realHeight ∧
     ∀ f, (n.Delete x).2 = some f →
       (n.Delete x).1.inOrderList = n.inOrderList.erase f)
  | _, .nil, _, x, _, _, _ => by
    have h1 : ((Node.nil).Delete x).1 = Node.nil := by rw [Node.Delete_nil]
    have h2 : ((Node.nil).Delete x).2 = none := by rw [Node.Delete_nil]
    rw [h1, h2]
    exact ⟨trivial, trivial, trivial, by simp [Node.realHeight], le_refl _,
      fun f hf => Option.noConfusion hf⟩
  | 0, .node v l r h, hk, x, _, _, _ => by
    simp [Node.count] at hk
  | k + 1, .node v l r h, hk, x, hH, hB, hS => by
    have hlk : l.count ≤ k := by
      have hc := hk
      simp only [Node.count] at hc
      omega
    have hrk : r.count ≤ k := by
      have hc := hk
      simp only [Node.count] at hc
      omega
    obtain ⟨hhEq, hlH, hrH⟩ := hH
    obtain ⟨hb1, hb2, hlB, hrB⟩ := hB
    obtain ⟨hlv, hvr, hlS, hrS⟩ := hS
    rcases lt_trichotomy x.key v.key with hx | hx | hx
    · -- delete from the left subtree
      have hxc : Item.compare x v < 0 := by simp only [Item.compare]; omega
      obtain ⟨mH, mB, mS, mh1, mh2, mer⟩ :=
        Node.Delete_ok k l hlk x hlH hlB hlS
      rcases hp : l.Delete x with ⟨m, me⟩
      rw [hp] at mH mB mS mh1 mh2 mer
      cases me with
      | none =>
        have hfst : ((Node.node v l r h).Delete x).1 = Node.node v l r h := by
          rw [Node.Delete_lt_miss v l r h x m hxc hp]
        have hsnd : ((Node.node v l r h).Delete x).2 = none := by
          rw [Node.Delete_lt_miss v l r h x m hxc hp]
        rw [hfst, hsnd]
        exact ⟨⟨hhEq, hlH, hrH⟩, ⟨hb1, hb2, hlB, hrB⟩, ⟨hlv, hvr, hlS, hrS⟩,
          by omega, le_refl _, fun f hf => Option.noConfusion hf⟩
      | some f =>
        have mH' : m.Hgood := mH
        have mB' : m.Bal := mB
        have mS' : m.BST := mS
        have mh1' : l.realHeight - 1 ≤ m.realHeight := mh1
        have mh2' : m.realHeight ≤ l.realHeight := mh2
        have mer' : m.inOrderList = l.inOrderList.erase f := mer f rfl
        have hfl : f ∈ l.inOrderList ∧ f.key = x.key := by
          have hs := Node.Delete_snd l x
          rw [hp] at hs
          exact (Node.Search_spec l hlS x f).1 hs.symm
        obtain ⟨rH, rB, rhU, rhL, rEq⟩ :=
          Node.rebalance_spec v m r h mH' hrH mB' hrB (by omega) (by omega)
        have hfst : ((Node.node v l r h).Delete x).1 =
            ((Node.node v m r h).adjustHeight).rebalance := by
          rw [Node.Delete_lt_hit v l r h x m f hxc hp]
        have hsnd : ((Node.node v l r h).Delete x).2 = some f := by
          rw [Node.Delete_lt_hit v l r h x m f hxc hp]
        rw [hfst, hsnd]
        have hmb : ∀ e ∈ m.inOrderList, e.key < v.key := by
          intro e he
          rw [mer'] at he
          exact hlv e (List.mem_of_mem_erase he)
        refine ⟨rH, rB, ?_, ?_, ?_, ?_⟩
        · rw [Node.bst_iff_pairwise, Node.reb_list]
          exact pairwise_mid ((Node.bst_iff_pairwise m).1 mS')
            ((Node.bst_iff_pairwise r).1 hrS) hmb hvr
        · rw [Node.realHeight_node]
          by_cases hc : m.realHeight ≤ r.realHeight + 1 ∧
              r.realHeight ≤ m.realHeight + 1
          · rw [rEq hc.1 hc.2, Node.realHeight_node]
            omega
          · omega
        · rw [Node.realHeight_node]
          omega
        · intro g hg
          injection hg with hg
          subst hg
          rw [Node.reb_list, Node.inOrderList_node, mer',
            List.erase_append_left _ hfl.1]
    · -- x matches this node: destroy it
      have hxc : Item.compare x v = 0 := by simp only [Item.compare]; omega
      cases l with
      | nil =>
        cases r with
        | nil =>
          have hd := Node.destroy_leaf v h
          have hfst : ((Node.node v .nil .nil h).Delete x).1 = Node.nil := by
            rw [Node.Delete_here_nil v .nil .nil h x hxc hd]
          have hsnd : ((Node.node v .nil .nil h).Delete x).2 = some v := by
            rw [Node.Delete_here_nil v .nil .nil h x hxc hd]
          rw [hfst, hsnd]
          refine ⟨trivial, trivial, trivial, ?_, ?_, ?_⟩
          · rw [Node.realHeight_node]
            simp [Node.realHeight]
          · rw [Node.realHeight_node]
            simp [Node.realHeight]
          · intro g hg
            injection hg with hg
            subst hg
            simp [Node.inOrderList, List.erase_cons_head]
        | node rv rl rr rh2 =>
          have hd := Node.destroy_right v rv rl rr rh2 h
          have hfst : ((Node.node v .nil (Node.node rv rl rr rh2) h).Delete x).1 =
              Node.node rv rl rr rh2 := by
            rw [Node.Delete_here_node v .nil (Node.node rv rl rr rh2) h x
              rv rl rr rh2 hxc hd]
            rw [Node.adjust_self _ hrH, Node.rebalance_self _ hrH hrB]
          have hsnd : ((Node.node v .nil (Node.node rv rl rr rh2) h).Delete x).2 =
              some v := by
            rw [Node.Delete_here_node v .nil (Node.node rv rl rr rh2) h x
              rv rl rr rh2 hxc hd]
          rw [hfst, hsnd]
          refine ⟨hrH, hrB, hrS, ?_, ?_, ?_⟩
          · have h0 : (Node.nil : Node).realHeight = 0 := rfl
            have hnn := Node.realHeight_nonneg (Node.node rv rl rr rh2)
            rw [Node.realHeight_node v Node.nil (Node.node rv rl rr rh2) h]
            omega
          · have h0 : (Node.nil : Node).realHeight = 0 := rfl
            rw [Node.realHeight_node v Node.nil (Node.node rv rl rr rh2) h]
            omega
          · intro g hg
            injection hg with hg
            subst hg
            show (Node.node rv rl rr rh2).inOrderList =
              (v :: (Node.node rv rl rr rh2).inOrderList).erase v
            rw [List.erase_cons_head]
      | node lv ll lr lh =>
        cases r with
        | nil =>
          have hd := Node.destroy_left v lv ll lr lh h
          have hfst : ((Node.node v (Node.node lv ll lr lh) .nil h).Delete x).1 =
              Node.node lv ll lr lh := by
            rw [Node.Delete_here_node v (Node.node lv ll lr lh) .nil h x
              lv ll lr lh hxc hd]
            rw [Node.adjust_self _ hlH, Node.rebalance_self _ hlH hlB]
          have hsnd : ((Node.node v (Node.node lv ll lr lh) .nil h).Delete x).2 =
              some v := by
            rw [Node.Delete_here_node v (Node.node lv ll lr lh) .nil h x
              lv ll lr lh hxc hd]
          rw [hfst, hsnd]
          have hvnotl : v ∉ (Node.node lv ll lr lh).inOrderList := fun hc => by
            have := hlv v hc
            omega
          refine ⟨hlH, hlB, hlS, ?_, ?_, ?_⟩
          · have h0 : (Node.nil : Node).realHeight = 0 := rfl
            have hnn := Node.realHeight_nonneg (Node.node lv ll lr lh)
            rw [Node.realHeight_node v (Node.node lv ll lr lh) Node.nil h]
            omega
          · have h0 : (Node.nil : Node).realHeight = 0 := rfl
            rw [Node.realHeight_node v (Node.node lv ll lr lh) Node.nil h]
            omega
          · intro g hg
            injection hg with hg
            subst hg
            rw [Node.inOrderList_node v (Node.node lv ll lr lh) Node.nil h,
              show (Node.nil).inOrderList = ([] : List Item) from rfl,
              List.erase_append_right _ hvnotl, List.erase_cons_head,
              List.append_nil]
        | node rv rl rr rh2 =>
          rcases hMax : (Node.node lv ll lr lh).Max with _ | m
          · exact absurd ((Node.Max_spec _ hlS).1 hMax) (by simp)
          · obtain ⟨hmmem, hmub⟩ := (Node.Max_spec _ hlS).2 m hMax
            have hmerase := Node.Max_erase _ hlS m hMax
            have hd := Node.destroy_both v lv rv ll lr rl rr lh rh2 h m hMax
            obtain ⟨dH, dB, dS, dh1, dh2, der⟩ :=
              Node.Delete_ok k (Node.node lv ll lr lh) hlk m hlH hlB hlS
            rcases hp : (Node.node lv ll lr lh).Delete m with ⟨dl, de⟩
            rw [hp] at dH dB dS dh1 dh2 der hd
            have hsearch : (Node.node lv ll lr lh).Search m = some m :=
              (Node.Search_spec _ hlS m m).2 ⟨hmmem, rfl⟩
            have hde : de = some m := by
              have hs := Node.Delete_snd (Node.node lv ll lr lh) m
              rw [hp, hsearch] at hs
              exact hs
            subst hde
            have dH' : dl.Hgood := dH
            have dB' : dl.Bal := dB
            have dS' : dl.BST := dS
            have dh1' : (Node.node lv ll lr lh).realHeight - 1 ≤ dl.realHeight :=
              dh1
            have dh2' : dl.realHeight ≤ (Node.node lv ll lr lh).realHeight := dh2
            have der' : dl.inOrderList =
                (Node.node lv ll lr lh).inOrderList.erase m := der m rfl
            have hd' : Node.destroy v (Node.node lv ll lr lh)
                (Node.node rv rl rr rh2) h =
                Node.node m dl (Node.node rv rl rr rh2) 0 := hd
            have hfst : ((Node.node v (Node.node lv ll lr lh)
                (Node.node rv rl rr rh2) h).Delete x).1 =
                ((Node.node m dl (Node.node rv rl rr rh2) 0).adjustHeight).rebalance := by
              rw [Node.Delete_here_node v (Node.node lv ll lr lh)
                (Node.node rv rl rr rh2) h x m dl (Node.node rv rl rr rh2) 0
                hxc hd']
            have hsnd : ((Node.node v (Node.node lv ll lr lh)
                (Node.node rv rl rr rh2) h).Delete x).2 = some v := by
              rw [Node.Delete_here_node v (Node.node lv ll lr lh)
                (Node.node rv rl rr rh2) h x m dl (Node.node rv rl rr rh2) 0
                hxc hd']
            rw [hfst, hsnd]
            obtain ⟨rH, rB, rhU, rhL, rEq⟩ :=
              Node.rebalance_spec m dl (Node.node rv rl rr rh2) 0 dH' hrH
                dB' hrB (by omega) (by omega)
            have hnodup : (Node.node lv ll lr lh).inOrderList.Nodup :=
              Node.bst_nodup hlS
            have hkinj := Node.bst_key_inj hlS
            have hdlb : ∀ e ∈ dl.inOrderList, e.key < m.key := by
              intro e he
              rw [der'] at he
              have hne : e ≠ m := ((hnodup.mem_erase_iff).1 he).1
              have hml : e ∈ (Node.node lv ll lr lh).inOrderList :=
                List.mem_of_mem_erase he
              have hle : e.key ≤ m.key := hmub e hml
              rcases lt_or_eq_of_le hle with hlt | heq2
              · exact hlt
              · exact absurd (hkinj e hml m hmmem heq2) hne
            have hmr : ∀ e ∈ (Node.node rv rl rr rh2).inOrderList,
                m.key < e.key := by
              intro e he
              have h1 : m.key < v.key := hlv m hmmem
              have h2 : v.key < e.key := hvr e he
              omega
            refine ⟨rH, rB, ?_, ?_, ?_, ?_⟩
            · rw [Node.bst_iff_pairwise, Node.reb_list]
              exact pairwise_mid ((Node.bst_iff_pairwise dl).1 dS')
                ((Node.bst_iff_pairwise _).1 hrS) hdlb hmr
            · rw [Node.realHeight_node v (Node.node lv ll lr lh)
                (Node.node rv rl rr rh2) h]
              by_cases hc : dl.realHeight ≤
                  (Node.node rv rl rr rh2).realHeight + 1 ∧
                  (Node.node rv rl rr rh2).realHeight ≤ dl.realHeight + 1
              · rw [rEq hc.1 hc.2, Node.realHeight_node m dl
                  (Node.node rv rl rr rh2)
                  (max dl.realHeight (Node.node rv rl rr rh2).realHeight + 1)]
                omega
              · omega
            · rw [Node.realHeight_node v (Node.node lv ll lr lh)
                (Node.node rv rl rr rh2) h]
              omega
            · intro g hg
              injection hg with hg
              subst hg
              have hvnotl : v ∉ (Node.node lv ll lr lh).inOrderList :=
                fun hc => by
                  have := hlv v hc
                  omega
              rw [Node.reb_list, Node.inOrderList_node v
                (Node.node lv ll lr lh) (Node.node rv rl rr rh2) h, der',
                List.erase_append_right _ hvnotl, List.erase_cons_head]
              calc (Node.node lv ll lr lh).inOrderList.erase m ++
                    m :: (Node.node rv rl rr rh2).inOrderList
                  = ((Node.node lv ll lr lh).inOrderList.erase m ++ [m]) ++
                    (Node.node rv rl rr rh2).inOrderList := by
                    rw [List.append_assoc]
                    rfl
                _ = (Node.node lv ll lr lh).inOrderList ++
                    (Node.node rv rl rr rh2).inOrderList := by rw [hmerase]
    · -- delete from the right subtree
      have hxc : Item.compare x v > 0 := by simp only [Item.compare]; omega
      obtain ⟨mH, mB, mS, mh1, mh2, mer⟩ :=
        Node.Delete_ok k r hrk x hrH hrB hrS
      rcases hp : r.Delete x with ⟨m, me⟩
      rw [hp] at mH mB mS mh1 mh2 mer
      cases me with
      | none =>
        have hfst : ((Node.node v l r h).Delete x).1 = Node.node v l r h := by
          rw [Node.Delete_gt_miss v l r h x m hxc hp]
        have hsnd : ((Node.node v l r h).Delete x).2 = none := by
          rw [Node.Delete_gt_miss v l r h x m hxc hp]
        rw [hfst, hsnd]
        exact ⟨⟨hhEq, hlH, hrH⟩, ⟨hb1, hb2, hlB, hrB⟩, ⟨hlv, hvr, hlS, hrS⟩,
          by omega, le_refl _, fun f hf => Option.noConfusion hf⟩
      | some f =>
        have mH' : m.Hgood := mH
        have mB' : m.Bal := mB
        have mS' : m.BST := mS
        have mh1' : r.realHeight - 1 ≤ m.realHeight := mh1
        have mh2' : m.realHeight ≤ r.realHeight := mh2
        have mer' : m.inOrderList = r.inOrderList.erase f := mer f rfl
        have hfr : f ∈ r.inOrderList ∧ f.key = x.key := by
          have hs := Node.Delete_snd r x
          rw [hp] at hs
          exact (Node.Search_spec r hrS x f).1 hs.symm
        obtain ⟨rH, rB, rhU, rhL, rEq⟩ :=
          Node.rebalance_spec v l m h hlH mH' hlB mB' (by omega) (by omega)
        have hfst : ((Node.node v l r h).Delete x).1 =
            ((Node.node v l m h).adjustHeight).rebalance := by
          rw [Node.Delete_gt_hit v l r h x m f hxc hp]
        have hsnd : ((Node.node v l r h).Delete x).2 = some f := by
          rw [Node.Delete_gt_hit v l r h x m f hxc hp]
        rw [hfst, hsnd]
        have hmb : ∀ e ∈ m.inOrderList, v.key < e.key := by
          intro e he
          rw [mer'] at he
          exact hvr e (List.mem_of_mem_erase he)
        refine ⟨rH, rB, ?_, ?_, ?_, ?_⟩
        · rw [Node.bst_iff_pairwise, Node.reb_list]
          exact pairwise_mid ((Node.bst_iff_pairwise l).1 hlS)
            ((Node.bst_iff_pairwise m).1 mS') hlv hmb
        · rw [Node.realHeight_node]
          by_cases hc : l.realHeight ≤ m.realHeight + 1 ∧
              m.realHeight ≤ l.realHeight + 1
          · rw [rEq hc.1 hc.2, Node.realHeight_node]
            omega
          · omega
        · rw [Node.realHeight_node]
          omega
        · intro g hg
          injection hg with hg
          subst hg
          have hfnotl : f ∉ l.inOrderList := fun hc => by
            have h1 := hlv f hc
            omega
          rw [Node.reb_list, Node.inOrderList_node, mer',
            List.erase_append_right _ hfnotl,
            show (v :: r.inOrderList : List Item) = [v] ++ r.inOrderList
              from rfl,
            List.erase_append_right _ (by
              simp only [List.mem_singleton]
              intro hc
              subst hc
              omega)]
          rfl

/-! ### Every reachable tree is a height-correct, balanced BST -/

theorem Node.mem_inOrderList_node {e v : Item} {l r : Node} {h : Int} :
    e ∈ (Node.node v l r h).inOrderList ↔
      e ∈ l.inOrderList ∨ e = v ∨ e ∈ r.inOrderList := by
  rw [Node.inOrderList_node]
  simp

theorem Reachable_invariant {t : Tree} (hR : Reachable t) :
    t.root.Hgood ∧ t.root.Bal ∧ t.root.BST := by
  induction hR with
  | empty => exact ⟨trivial, trivial, trivial⟩
  | insert t x ht ih =>
    obtain ⟨hH, hB, hS⟩ := ih
    have hroot : ((t.Insert x).1).root = (t.root.Insert x).1 := rfl
    rw [hroot]
    obtain ⟨h1, h2, h3, _⟩ := Node.Insert_ok x t.root hH hB hS
    exact ⟨h1, h2, h3⟩
  | update t x ht ih =>
    obtain ⟨hH, hB, hS⟩ := ih
    have hroot : ((t.Update x).1).root = (t.root.Update x).1 := rfl
    rw [hroot]
    obtain ⟨h1, h2, h3, _⟩ := Node.Update_ok x t.root hH hB hS
    exact ⟨h1, h2, h3⟩
  | delete t x ht ih =>
    obtain ⟨hH, hB, hS⟩ := ih
    have hroot : ((t.Delete x).1).root = (t.root.Delete x).1 := rfl
    rw [hroot]
    obtain ⟨h1, h2, h3, _⟩ :=
      Node.Delete_ok t.root.count t.root (le_refl _) x hH hB hS
    exact ⟨h1, h2, h3⟩

/-! ### Predecessor and Successor -/

set_option maxHeartbeats 1000000 in
theorem Node.Pred_spec : ∀ n : Node, n.BST → ∀ x : Item,
    (n.Predcessor x = none → ∀ e ∈ n.inOrderList, ¬ e.key < x.key) ∧
    (∀ p, n.Predcessor x = some p → p ∈ n.inOrderList ∧ p.key < x.key ∧
      ∀ e ∈ n.inOrderList, e.key < x.key → e.key ≤ p.key)
  | .nil, _, x => by simp [Node.Predcessor, Node.inOrderList]
  | .node v l r h, hb, x => by
    obtain ⟨hlv, hvr, hlS, hrS⟩ := hb
    have ihl := Node.Pred_spec l hlS x
    have ihr := Node.Pred_spec r hrS x
    simp only [Node.Predcessor]
    rcases lt_trichotomy x.key v.key with hx | hx | hx
    · rw [if_pos (by simp only [Item.compare]; omega)]
      constructor
      · intro hnone e he hlt
        rcases (Node.mem_inOrderList_node).1 he with he | rfl | he
        · exact ihl.1 hnone e he hlt
        · omega
        · have := hvr e he
          omega
      · intro p hp
        obtain ⟨hmem, hklt, hmax⟩ := ihl.2 p hp
        refine ⟨(Node.mem_inOrderList_node).2 (Or.inl hmem), hklt, ?_⟩
        intro e he hlt
        rcases (Node.mem_inOrderList_node).1 he with he | rfl | he
        · exact hmax e he hlt
        · omega
        · have := hvr e he
          omega
    · rw [if_neg (by simp only [Item.compare]; omega),
        if_neg (by simp only [Item.compare]; omega)]
      have hms := Node.Max_spec l hlS
      constructor
      · intro hnone e he hlt
        have hlnil := hms.1 hnone
        subst hlnil
        rcases (Node.mem_inOrderList_node).1 he with he | rfl | he
        · simp [Node.inOrderList] at he
        · omega
        · have := hvr e he
          omega
      · intro p hp
        obtain ⟨hmem, hub⟩ := hms.2 p hp
        have hpk : p.key < v.key := hlv p hmem
        refine ⟨(Node.mem_inOrderList_node).2 (Or.inl hmem), by omega, ?_⟩
        intro e he hlt
        rcases (Node.mem_inOrderList_node).1 he with he | rfl | he
        · exact hub e he
        · omega
        · have := hvr e he
          omega
    · rw [if_neg (by simp only [Item.compare]; omega),
        if_pos (by simp only [Item.compare]; omega)]
      rcases hrp : r.Predcessor x with _ | p
      · constructor
        · intro hnone
          exact Option.noConfusion hnone
        · intro p hp
          injection hp with hvp
          subst hvp
          refine ⟨(Node.mem_inOrderList_node).2 (Or.inr (Or.inl rfl)),
            by omega, ?_⟩
          intro e he hlt
          rcases (Node.mem_inOrderList_node).1 he with he | rfl | he
          · have := hlv e he
            omega
          · omega
          · exact absurd hlt (ihr.1 hrp e he)
      · constructor
        · intro hnone
          exact Option.noConfusion hnone
        · intro q hq
          injection hq with hpq
          subst hpq
          obtain ⟨hmem, hklt, hmax⟩ := ihr.2 p hrp
          have hvp : v.key < p.key := hvr p hmem
          refine ⟨(Node.mem_inOrderList_node).2 (Or.inr (Or.inr hmem)),
            hklt, ?_⟩
          intro e he hlt
          rcases (Node.mem_inOrderList_node).1 he with he | rfl | he
          · have := hlv e he
            omega
          · omega
          · exact hmax e he hlt

set_option maxHeartbeats 1000000 in
theorem Node.Succ_spec : ∀ n : Node, n.BST → ∀ x : Item,
    (n.Successor x = none → ∀ e ∈ n.inOrderList, ¬ x.key < e.key) ∧
    (∀ s, n.Successor x = some s → s ∈ n.inOrderList ∧ x.key < s.key ∧
      ∀ e ∈ n.inOrderList, x.key < e.key → s.key ≤ e.key)
  | .nil, _, x => by simp [Node.Successor, Node.inOrderList]
  | .node v l r h, hb, x => by
    obtain ⟨hlv, hvr, hlS, hrS⟩ := hb
    have ihl := Node.Succ_spec l hlS x
    have ihr := Node.Succ_spec r hrS x
    simp only [Node.Successor]
    rcases lt_trichotomy x.key v.key with hx | hx | hx
    · rw [if_pos (by simp only [Item.compare]; omega)]
      rcases hlp : l.Successor x with _ | p
      · constructor
        · intro hnone
          exact Option.noConfusion hnone
        · intro p hp
          injection hp with hvp
          subst hvp
          refine ⟨(Node.mem_inOrderList_node).2 (Or.inr (Or.inl rfl)),
            by omega, ?_⟩
          intro e he hlt
          rcases (Node.mem_inOrderList_node).1 he with he | rfl | he
          · exact absurd hlt (ihl.1 hlp e he)
          · omega
          · have := hvr e he
            omega
      · constructor
        · intro hnone
          exact Option.noConfusion hnone
        · intro q hq
          injection hq with hpq
          subst hpq
          obtain ⟨hmem, hklt, hmin⟩ := ihl.2 p hlp
          have hqv : p.key < v.key := hlv p hmem
          refine ⟨(Node.mem_inOrderList_node).2 (Or.inl hmem), hklt, ?_⟩
          intro e he hlt
          rcases (Node.mem_inOrderList_node).1 he with he | rfl | he
          · exact hmin e he hlt
          · omega
          · have := hvr e he
            omega
    · rw [if_neg (by simp only [Item.compare]; omega),
        if_neg (by simp only [Item.compare]; omega)]
      have hms := Node.Min_spec r hrS
      constructor
      · intro hnone e he hlt
        have hrnil := hms.1 hnone
        subst hrnil
        rcases (Node.mem_inOrderList_node).1 he with he | rfl | he
        · have := hlv e he
          omega
        · omega
        · simp [Node.inOrderList] at he
      · intro s hs
        obtain ⟨hmem, hlb⟩ := hms.2 s hs
        have hsk : v.key < s.key := hvr s hmem
        refine ⟨(Node.mem_inOrderList_node).2 (Or.inr (Or.inr hmem)),
          by omega, ?_⟩
        intro e he hlt
        rcases (Node.mem_inOrderList_node).1 he with he | rfl | he
        · have := hlv e he
          omega
        · omega
        · exact hlb e he
    · rw [if_neg (by simp only [Item.compare]; omega),
        if_pos (by simp only [Item.compare]; omega)]
      constructor
      · intro hnone e he hlt
        rcases (Node.mem_inOrderList_node).1 he with he | rfl | he
        · have := hlv e he
          omega
        · omega
        · exact ihr.1 hnone e he hlt
      · intro s hs
        obtain ⟨hmem, hklt, hmin⟩ := ihr.2 s hs
        refine ⟨(Node.mem_inOrderList_node).2 (Or.inr (Or.inr hmem)),
          hklt, ?_⟩
        intro e he hlt
        rcases (Node.mem_inOrderList_node).1 he with he | rfl | he
        · have := hlv e he
          omega
        · omega
        · exact hmin e he hlt

/-! ### The claims -/

theorem sampleTree_reachable : Reachable sampleTree :=
  Reachable.insert _ _ (Reachable.insert _ _
    (Reachable.insert _ _ Reachable.empty))

/-- C1: the claim says `Update(x)` returns the previously stored item
exactly when an item comparing equal to `x` was present, and stores `x`
in place of it, also when the match lies in the right subtree.  The
code does neither: `part_001` line 117 returns the literal `nil` as
`prev`, and line 110 delegates the right branch to `Insert`, which
keeps the old item.  At the tree `{⟨1,0⟩, ⟨2,0⟩}`, `Update ⟨2,5⟩`
returns an empty previous although key 2 is present, leaves the stored
item `⟨2,0⟩` unreplaced, and (via `tree.go` line 38) bumps the size to
3. -/
theorem claim_C1 :
    ((((Tree.empty.Insert ⟨1, 0⟩).1.Insert ⟨2, 0⟩).1.Update ⟨2, 5⟩).2 =
      none) ∧
    ((((Tree.empty.Insert ⟨1, 0⟩).1.Insert ⟨2, 0⟩).1.Update
      ⟨2, 5⟩).1.Search ⟨2, 7⟩ = some ⟨2, 0⟩) ∧
    ((((Tree.empty.Insert ⟨1, 0⟩).1.Insert ⟨2, 0⟩).1.Update
      ⟨2, 5⟩).1.Size = 3) := by
  decide

/-- C2: the claim says each traversal stops as soon as the visitor
returns false.  The node-layer traversals (`part_001` lines 245-274)
discard the visitor's boolean, contradicting the doc comments of
`tree.go` lines 85-99.  On the two-element tree `{1, 2}` a visitor that
returns false on every call is nevertheless handed both items by all
three traversals. -/
theorem claim_C2 :
    (((Tree.empty.Insert (it 1)).1.Insert (it 2)).1.InOrder stopVisitor [] =
      [it 1, it 2]) ∧
    (((Tree.empty.Insert (it 1)).1.Insert (it 2)).1.PreOrder stopVisitor [] =
      [it 1, it 2]) ∧
    (((Tree.empty.Insert (it 1)).1.Insert (it 2)).1.PostOrder stopVisitor [] =
      [it 2, it 1]) ∧
    ¬ (((Tree.empty.Insert (it 1)).1.Insert (it 2)).1.InOrder stopVisitor
      []).length ≤ 1 := by
  decide

/-- C3: for every tree reachable from the empty tree by Insert, Update
and Delete, the in-order traversal visits the stored items in strictly
ascending order of the comparison function. -/
theorem claim_C3 (t : Tree) (hR : Reachable t) :
    (t.InOrder collectVisitor []).Pairwise
      (fun a b => Item.compare a b < 0) := by
  obtain ⟨_, _, hS⟩ := Reachable_invariant hR
  have hl : t.InOrder collectVisitor [] = t.root.inOrderList := by
    show t.root.InOrder collectVisitor [] = _
    rw [Node.InOrder_collect]
    rfl
  rw [hl]
  exact ((Node.bst_iff_pairwise t.root).1 hS).imp
    (fun hlt => by simp only [Item.compare]; omega)

/-- C3 witness: the sample tree, built by three inserts. -/
theorem claim_C3_witness :
    (sampleTree.InOrder collectVisitor []).Pairwise
      (fun a b => Item.compare a b < 0) :=
  claim_C3 sampleTree sampleTree_reachable

/-- C4: every node of a reachable tree is height-balanced
(`|height(right) - height(left)| ≤ 1`, stated by `Bal`) and caches
exactly `1 + max(child heights)` in its `h` field (stated by `Hgood`),
with the empty subtree of height 0. -/
theorem claim_C4 (t : Tree) (hR : Reachable t) :
    t.root.Hgood ∧ t.root.Bal :=
  ⟨(Reachable_invariant hR).1, (Reachable_invariant hR).2.1⟩

/-- C4 witness: the sample tree. -/
theorem claim_C4_witness : sampleTree.root.Hgood ∧ sampleTree.root.Bal :=
  claim_C4 sampleTree sampleTree_reachable

/-- C5: inserting an item that compares equal to a stored item returns
the tree unchanged as a value (same root and same size) together with
the previously stored item. -/
theorem claim_C5 (t : Tree) (x e : Item) (hR : Reachable t)
    (he : e ∈ t.root.inOrderList) (hc : Item.compare x e = 0) :
    t.Insert x = (t, some e) := by
  obtain ⟨_, _, hS⟩ := Reachable_invariant hR
  have hk : e.key = x.key := by
    simp only [Item.compare] at hc
    omega
  have hsearch : t.root.Search x = some e :=
    (Node.Search_spec t.root hS x e).2 ⟨he, hk⟩
  have hins : (t.root.Insert x).2 = some e := by
    rw [Node.Insert_snd]
    exact hsearch
  have hfst : (t.root.Insert x).1 = t.root := Node.Insert_found t.root x e hins
  show (⟨(t.root.Insert x).1,
      if (t.root.Insert x).2 = none then t.size + 1 else t.size⟩,
    (t.root.Insert x).2) = (t, some e)
  rw [hins, hfst]
  simp

/-- C5 witness: re-inserting key 2 (with a different payload) into the
sample tree returns the tree unchanged and the stored item. -/
theorem claim_C5_witness :
    sampleTree.Insert ⟨2, 9⟩ = (sampleTree, some ⟨2, 0⟩) :=
  claim_C5 sampleTree ⟨2, 9⟩ ⟨2, 0⟩ sampleTree_reachable (by decide)
    (by decide)

/-- C6: the claim says `Size()` always equals the in-order item count.
Because `node.Update` returns `nil` as `prev` (`part_001` line 117),
`Tree.Update` (`tree.go` line 38) increments `size` even when the key
was already present: after inserting key 1 and then updating key 1 the
size counter reads 2 while the traversal visits a single item. -/
theorem claim_C6 :
    (((Tree.empty.Insert ⟨1, 0⟩).1.Update ⟨1, 0⟩).1.Size = 2) ∧
    ((((Tree.empty.Insert ⟨1, 0⟩).1.Update ⟨1, 0⟩).1.InOrder collectVisitor
      []).length = 1) := by
  decide

/-- C8: deleting a key that is not in the tree returns the original
tree unchanged (the same root value, size not decremented) together
with the empty sentinel; no error path exists. -/
theorem claim_C8 (t : Tree) (x : Item) (hR : Reachable t)
    (habs : ∀ e ∈ t.root.inOrderList, Item.compare x e ≠ 0) :
    t.Delete x = (t, none) := by
  obtain ⟨_, _, hS⟩ := Reachable_invariant hR
  have hnone : t.root.Search x = none := by
    rw [Node.search_none_iff hS]
    intro e he hk
    exact habs e he (by simp only [Item.compare]; omega)
  have hsnd : (t.root.Delete x).2 = none := by
    rw [Node.Delete_snd]
    exact hnone
  have hfst : (t.root.Delete x).1 = t.root :=
    Node.Delete_not_found t.root x hsnd
  show (⟨(t.root.Delete x).1,
      if (t.root.Delete x).2 = none then t.size else t.size - 1⟩,
    (t.root.Delete x).2) = (t, none)
  rw [hsnd, hfst]
  simp

/-- C8 witness: deleting the absent key 5 from the sample tree. -/
theorem claim_C8_witness :
    sampleTree.Delete ⟨5, 0⟩ = (sampleTree, none) :=
  claim_C8 sampleTree ⟨5, 0⟩ sampleTree_reachable (by decide)

/-- C9: on a reachable tree, `Predecessor x` is the greatest stored
item strictly below `x` (empty when none is below), and `Successor x`
the smallest stored item strictly above `x` (empty when none is
above), whether or not `x` itself is stored. -/
theorem claim_C9 (t : Tree) (x : Item) (hR : Reachable t) :
    (t.Predecessor x = none →
      ∀ e ∈ t.root.inOrderList, ¬ Item.compare e x < 0) ∧
    (∀ p, t.Predecessor x = some p → p ∈ t.root.inOrderList ∧
      Item.compare p x < 0 ∧
      ∀ e ∈ t.root.inOrderList, Item.compare e x < 0 →
        Item.compare e p ≤ 0) ∧
    (t.Successor x = none →
      ∀ e ∈ t.root.inOrderList, ¬ Item.compare x e < 0) ∧
    (∀ s, t.Successor x = some s → s ∈ t.root.inOrderList ∧
      Item.compare x s < 0 ∧
      ∀ e ∈ t.root.inOrderList, Item.compare x e < 0 →
        Item.compare s e ≤ 0) := by
  obtain ⟨_, _, hS⟩ := Reachable_invariant hR
  have hp := Node.Pred_spec t.root hS x
  have hs := Node.Succ_spec t.root hS x
  refine ⟨?_, ?_, ?_, ?_⟩
  · intro hn e he hlt
    exact hp.1 hn e he (by simp only [Item.compare] at hlt; omega)
  · intro p hpp
    obtain ⟨hmem, hklt, hmax⟩ := hp.2 p hpp
    refine ⟨hmem, by simp only [Item.compare]; omega, ?_⟩
    intro e he hlt
    have := hmax e he (by simp only [Item.compare] at hlt; omega)
    simp only [Item.compare]
    omega
  · intro hn e he hlt
    exact hs.1 hn e he (by simp only [Item.compare] at hlt; omega)
  · intro q hq
    obtain ⟨hmem, hklt, hmin⟩ := hs.2 q hq
    refine ⟨hmem, by simp only [Item.compare]; omega, ?_⟩
    intro e he hlt
    have := hmin e he (by simp only [Item.compare] at hlt; omega)
    simp only [Item.compare]
    omega

/-- C9 witness: on the sample tree, the predecessor of key 2 is the
stored item with key 1, and it is a stored item strictly below 2; the
successor is the stored item with key 3, strictly above 2. -/
theorem claim_C9_witness :
    sampleTree.Predecessor ⟨2, 0⟩ = some ⟨1, 0⟩ ∧
    (⟨1, 0⟩ : Item) ∈ sampleTree.root.inOrderList ∧
    Item.compare ⟨1, 0⟩ ⟨2, 0⟩ < 0 ∧
    sampleTree.Successor ⟨2, 0⟩ = some ⟨3, 0⟩ ∧
    Item.compare ⟨2, 0⟩ ⟨3, 0⟩ < 0 :=
  have h := claim_C9 sampleTree ⟨2, 0⟩ sampleTree_reachable
  have hpred := h.2.1 ⟨1, 0⟩ (by decide)
  have hsucc := h.2.2.2 ⟨3, 0⟩ (by decide)
  ⟨by decide, hpred.1, hpred.2.1, by decide, hsucc.2.1⟩

/-- C10: inserting an absent item `x` makes `Search x` return `x`
itself, and every key that searched to a stored item before still
searches to that same stored item afterwards. -/
theorem claim_C10 (t : Tree) (x : Item) (hR : Reachable t)
    (habs : ∀ e ∈ t.root.inOrderList, Item.compare x e ≠ 0) :
    (t.Insert x).1.Search x = some x ∧
    ∀ y e, t.Search y = some e → (t.Insert x).1.Search y = some e := by
  obtain ⟨hH, hB, hS⟩ := Reachable_invariant hR
  obtain ⟨h1, h2, h3, _, _, hmem⟩ := Node.Insert_ok x t.root hH hB hS
  have hroot : ((t.Insert x).1).root = (t.root.Insert x).1 := rfl
  have hnone : (t.root.Insert x).2 = none := by
    rw [Node.Insert_snd, Node.search_none_iff hS]
    intro e he hk
    exact habs e he (by simp only [Item.compare]; omega)
  constructor
  · show (t.Insert x).1.root.Search x = some x
    rw [hroot]
    exact (Node.Search_spec _ h3 x x).2
      ⟨(hmem x).2 (Or.inr ⟨hnone, rfl⟩), rfl⟩
  · intro y e hy
    have hy' := (Node.Search_spec t.root hS y e).1 hy
    show (t.Insert x).1.root.Search y = some e
    rw [hroot]
    exact (Node.Search_spec _ h3 y e).2 ⟨(hmem e).2 (Or.inl hy'.1), hy'.2⟩

/-- C10 witness: inserting the absent key 4 into the sample tree makes
key 4 searchable and keeps key 1 searching to its stored item. -/
theorem claim_C10_witness :
    (sampleTree.Insert ⟨4, 0⟩).1.Search ⟨4, 0⟩ = some ⟨4, 0⟩ ∧
    (sampleTree.Insert ⟨4, 0⟩).1.Search ⟨1, 5⟩ = some ⟨1, 0⟩ :=
  have h := claim_C10 sampleTree ⟨4, 0⟩ sampleTree_reachable (by decide)
  ⟨h.1, h.2 ⟨1, 5⟩ ⟨1, 0⟩ (by decide)⟩

end AvlSpec
